import Mathlib

/-!
Verification development for the engram causal code-history index.

The definitions below are a shallow embedding of the repository's core:
`src/index/lineage.rs`, `src/index/mod.rs`, `src/tape/event.rs`,
`src/anchor/winnow.rs` and `src/query/explain.rs`.  The SQLite tables are
modelled as in-memory lists of rows; `INSERT OR IGNORE` against a UNIQUE
constraint is modelled as a conditional append; `f32` confidence values are
modelled as rationals (only order comparisons and constants occur, so the
ordering behaviour is preserved exactly); fallible operations return
`Except`.
-/

namespace Engram

/-! ## Data model (`src/index/lineage.rs`) -/

inductive EvidenceKind
  | Edit | Read | Tool | Message
deriving DecidableEq, Repr

inductive LocationDelta
  | Same | Adjacent | Moved | Absent
deriving DecidableEq, Repr

inductive Cardinality
  | OneToOne | OneToMany | ManyToOne
deriving DecidableEq, Repr

inductive StoredEdgeClass
  | Lineage | LocationOnly
deriving DecidableEq, Repr

/-- `FileRange` from `src/tape/event.rs` (and structurally identical twin in
`src/index/lineage.rs`): inclusive pair of 1-based `u32` line numbers.
`end` is a Lean keyword, hence `end_`. -/
structure FileRange where
  start : Nat
  end_ : Nat
deriving DecidableEq, Repr

structure EvidenceFragmentRef where
  tape_id : String
  event_offset : Nat
  kind : EvidenceKind
  file_path : String
  timestamp : String
deriving DecidableEq, Repr

structure SpanEdge where
  from_anchor : String
  to_anchor : String
  confidence : ℚ
  location_delta : LocationDelta
  cardinality : Cardinality
  agent_link : Bool
  note : Option String
deriving DecidableEq, Repr

structure Tombstone where
  anchor_hashes : List String
  tape_id : String
  event_offset : Nat
  file_path : String
  range_at_deletion : FileRange
  timestamp : String
deriving DecidableEq, Repr

/-- `LINK_THRESHOLD_DEFAULT = 0.30`, written as an explicit reduced fraction
so that comparisons against it compute definitionally (see
`LINK_THRESHOLD_DEFAULT_eq`). -/
def LINK_THRESHOLD_DEFAULT : ℚ := ⟨3, 10, by decide, by decide⟩

/-- `SpanEdge::stored_class` from `src/index/lineage.rs`. -/
def SpanEdge.stored_class (e : SpanEdge) (link_threshold : ℚ) : StoredEdgeClass :=
  if e.agent_link = true ∨ link_threshold ≤ e.confidence then
    StoredEdgeClass.Lineage
  else
    StoredEdgeClass.LocationOnly

/-! ## Tape event model (`src/tape/event.rs`) -/

inductive EventKind
  | MsgIn | MsgOut | ToolCall | ToolResult | CodeRead | CodeEdit | SpanLink | Meta | Unknown
deriving DecidableEq, Repr

structure MetaEvent where
  model : Option String
  repo_head : Option String
  label : Option String
deriving DecidableEq, Repr

structure CodeReadEvent where
  file : String
  range : FileRange
  anchor_hashes : List String
deriving DecidableEq, Repr

/-- `CodeEditEvent`.  NOTE: `src/tape/event.rs` declares this struct *without*
a `similarity` field, while `src/index/mod.rs` (`ingest_tape_events`, line 444,
and that file's own tests) requires `edit.similarity : Option<f32>`.  The two
files are inconsistent; we include the field so that the ingest code of
`index/mod.rs` can be embedded, and embed the parser of `event.rs` so that it
never populates it (see `RawEvent.into_tape_event` below).  This inconsistency
is the subject of claim C1. -/
structure CodeEditEvent where
  file : String
  before_range : Option FileRange
  after_range : Option FileRange
  before_hash : Option String
  after_hash : Option String
  similarity : Option ℚ
deriving DecidableEq, Repr

structure SpanLinkEvent where
  from_file : String
  from_range : FileRange
  to_file : String
  to_range : FileRange
  note : Option String
deriving DecidableEq, Repr

inductive TapeEventData
  | CodeRead (event : CodeReadEvent)
  | CodeEdit (event : CodeEditEvent)
  | SpanLink (event : SpanLinkEvent)
  | Meta (event : MetaEvent)
  | Other (kind : EventKind)
deriving DecidableEq, Repr

structure TapeEvent where
  timestamp : String
  data : TapeEventData
deriving DecidableEq, Repr

structure TapeEventAt where
  offset : Nat
  event : TapeEvent
deriving DecidableEq, Repr

/-- `RawEvent` from `src/tape/event.rs` lines 121-157: the deserialized shape
of one normalized JSONL line.  The JSON deserializer itself (`serde_json`) is
an external dependency; it fills exactly the declared fields and silently
drops unknown JSON keys, so a `"similarity"` key on a `code.edit` line has no
field to land in. -/
structure RawEvent where
  timestamp : String
  kind : String
  model : Option String := none
  repo_head : Option String := none
  label : Option String := none
  file : Option String := none
  range : Option (Nat × Nat) := none
  before_range : Option (Nat × Nat) := none
  after_range : Option (Nat × Nat) := none
  before_hash : Option String := none
  after_hash : Option String := none
  anchor_hashes : Option (List String) := none
  from_file : Option String := none
  from_range : Option (Nat × Nat) := none
  to_file : Option String := none
  to_range : Option (Nat × Nat) := none
  note : Option String := none
deriving DecidableEq, Repr

def file_range (raw : Nat × Nat) : FileRange :=
  { start := raw.1, end_ := raw.2 }

def to_kind (kind : String) : EventKind :=
  match kind with
  | "msg.in" => EventKind.MsgIn
  | "msg.out" => EventKind.MsgOut
  | "tool.call" => EventKind.ToolCall
  | "tool.result" => EventKind.ToolResult
  | "code.read" => EventKind.CodeRead
  | "code.edit" => EventKind.CodeEdit
  | "span.link" => EventKind.SpanLink
  | "meta" => EventKind.Meta
  | _ => EventKind.Unknown

/-- `RawEvent::into_tape_event` from `src/tape/event.rs`.  The `code.edit` arm
constructs `CodeEditEvent` without any similarity (the struct in `event.rs`
has no such field), so the embedded event carries `similarity := none`. -/
def RawEvent.into_tape_event (self : RawEvent) : TapeEvent :=
  let kind := to_kind self.kind
  let data :=
    match self.kind with
    | "code.read" =>
        match self.file, self.range with
        | some file, some range =>
            TapeEventData.CodeRead
              { file, range := file_range range,
                anchor_hashes := self.anchor_hashes.getD [] }
        | _, _ => TapeEventData.Other kind
    | "code.edit" =>
        match self.file with
        | some file =>
            TapeEventData.CodeEdit
              { file,
                before_range := self.before_range.map file_range,
                after_range := self.after_range.map file_range,
                before_hash := self.before_hash,
                after_hash := self.after_hash,
                similarity := none }
        | none => TapeEventData.Other kind
    | "span.link" =>
        match self.from_file, self.from_range, self.to_file, self.to_range with
        | some from_file, some from_range, some to_file, some to_range =>
            TapeEventData.SpanLink
              { from_file, from_range := file_range from_range,
                to_file, to_range := file_range to_range,
                note := self.note }
        | _, _, _, _ => TapeEventData.Other kind
    | "meta" =>
        TapeEventData.Meta
          { model := self.model, repo_head := self.repo_head, label := self.label }
    | _ => TapeEventData.Other kind
  { timestamp := self.timestamp, data }

/-! ## The lineage index (`src/index/mod.rs`)

The three SQLite tables are modelled as lists of stored rows.  Column values
are kept in their storage encoding (TEXT strings for enums, 0/1 integer for
`agent_link`), exactly as the `encode_*` functions of `index/mod.rs` write
them and the `decode_*` functions read them back. -/

structure EvidenceRow where
  anchor : String
  tape_id : String
  event_offset : Nat
  kind : String
  file_path : String
  timestamp : String
deriving DecidableEq, Repr

structure StoredEdge where
  from_anchor : String
  to_anchor : String
  confidence : ℚ
  location_delta : String
  cardinality : String
  agent_link : Int
  note : String
  stored_class : String
deriving DecidableEq, Repr

structure TombstoneRow where
  anchor : String
  tape_id : String
  event_offset : Nat
  file_path : String
  range_start : Nat
  range_end : Nat
  timestamp : String
deriving DecidableEq, Repr

structure SqliteIndex where
  evidence : List EvidenceRow
  edges : List StoredEdge
  tombstones : List TombstoneRow
deriving DecidableEq, Repr

def emptyIndex : SqliteIndex := { evidence := [], edges := [], tombstones := [] }

/-- Returned edge shape (`EdgeRow` in `src/index/mod.rs`). -/
structure EdgeRow where
  from_anchor : String
  to_anchor : String
  confidence : ℚ
  location_delta : LocationDelta
  cardinality : Cardinality
  agent_link : Bool
  note : Option String
  stored_class : StoredEdgeClass
deriving DecidableEq, Repr

/-- Minimal model of `rusqlite::Error` as produced by the validators. -/
inductive SqlError
  | InvalidParameterName (msg : String)
deriving DecidableEq, Repr

def encode_evidence_kind (kind : EvidenceKind) : String :=
  match kind with
  | EvidenceKind.Edit => "edit"
  | EvidenceKind.Read => "read"
  | EvidenceKind.Tool => "tool"
  | EvidenceKind.Message => "message"

def decode_evidence_kind (raw : String) : EvidenceKind :=
  match raw with
  | "edit" => EvidenceKind.Edit
  | "read" => EvidenceKind.Read
  | "tool" => EvidenceKind.Tool
  | "message" => EvidenceKind.Message
  | _ => EvidenceKind.Read

def encode_location_delta (delta : LocationDelta) : String :=
  match delta with
  | LocationDelta.Same => "same"
  | LocationDelta.Adjacent => "adjacent"
  | LocationDelta.Moved => "moved"
  | LocationDelta.Absent => "absent"

def decode_location_delta (raw : String) : LocationDelta :=
  match raw with
  | "same" => LocationDelta.Same
  | "adjacent" => LocationDelta.Adjacent
  | "moved" => LocationDelta.Moved
  | "absent" => LocationDelta.Absent
  | _ => LocationDelta.Absent

def encode_cardinality (cardinality : Cardinality) : String :=
  match cardinality with
  | Cardinality.OneToOne => "1:1"
  | Cardinality.OneToMany => "1:N"
  | Cardinality.ManyToOne => "N:1"

def decode_cardinality (raw : String) : Cardinality :=
  match raw with
  | "1:1" => Cardinality.OneToOne
  | "1:N" => Cardinality.OneToMany
  | "N:1" => Cardinality.ManyToOne
  | _ => Cardinality.OneToOne

def encode_stored_class (class_ : StoredEdgeClass) : String :=
  match class_ with
  | StoredEdgeClass.Lineage => "lineage"
  | StoredEdgeClass.LocationOnly => "location_only"

def decode_stored_class (raw : String) : StoredEdgeClass :=
  match raw with
  | "location_only" => StoredEdgeClass.LocationOnly
  | _ => StoredEdgeClass.Lineage

/-- `SqliteIndex::validate_anchor`. -/
def validate_anchor (anchor : String) : Except SqlError Unit :=
  if anchor = "" then
    Except.error (SqlError.InvalidParameterName "anchor_hash must not be empty")
  else
    Except.ok ()

/-- `SqliteIndex::validate_confidence`. -/
def validate_confidence (confidence : ℚ) : Except SqlError Unit :=
  if 0 ≤ confidence ∧ confidence ≤ 1 then
    Except.ok ()
  else
    Except.error (SqlError.InvalidParameterName "confidence must be in [0.0, 1.0]")

/-- UNIQUE key of the `evidence` table: `(anchor, tape_id, event_offset, kind)`. -/
def evidenceKey (r : EvidenceRow) : String × String × Nat × String :=
  (r.anchor, r.tape_id, r.event_offset, r.kind)

/-- UNIQUE key of the `tombstones` table: `(anchor, tape_id, event_offset)`. -/
def tombstoneKey (r : TombstoneRow) : String × String × Nat :=
  (r.anchor, r.tape_id, r.event_offset)

/-- `INSERT OR IGNORE` into `evidence`: ignored when a row with the same
UNIQUE key already exists. -/
def insertEvidenceRow (tbl : List EvidenceRow) (r : EvidenceRow) : List EvidenceRow :=
  if tbl.any (fun q => evidenceKey q = evidenceKey r) then tbl else tbl ++ [r]

/-- `INSERT OR IGNORE` into `edges`.  The UNIQUE constraint covers the full
tuple, i.e. the whole row.  The schema's CHECK constraints
(`confidence` in `[0,1]`, `agent_link IN (0,1)`) also fall under the IGNORE
conflict resolution: a row violating them is silently skipped. -/
def insertEdgeRow (tbl : List StoredEdge) (r : StoredEdge) : List StoredEdge :=
  if ¬(0 ≤ r.confidence ∧ r.confidence ≤ 1 ∧ (r.agent_link = 0 ∨ r.agent_link = 1)) then tbl
  else if tbl.any (fun q => q = r) then tbl
  else tbl ++ [r]

/-- `INSERT OR IGNORE` into `tombstones`. -/
def insertTombstoneRow (tbl : List TombstoneRow) (r : TombstoneRow) : List TombstoneRow :=
  if tbl.any (fun q => tombstoneKey q = tombstoneKey r) then tbl else tbl ++ [r]

/-- The stored evidence row bound by `insert_evidence_on`. -/
def evidenceRowOf (anchor : String) (fragment : EvidenceFragmentRef) : EvidenceRow :=
  { anchor,
    tape_id := fragment.tape_id,
    event_offset := fragment.event_offset,
    kind := encode_evidence_kind fragment.kind,
    file_path := fragment.file_path,
    timestamp := fragment.timestamp }

/-- `SqliteIndex::insert_evidence_on`. -/
def insert_evidence_on (st : SqliteIndex) (anchor : String) (fragment : EvidenceFragmentRef) :
    Except SqlError SqliteIndex := do
  let _ ← validate_anchor anchor
  Except.ok { st with evidence := insertEvidenceRow st.evidence (evidenceRowOf anchor fragment) }

/-- The stored row that `SqliteIndex::insert_edge_on` binds for a `SpanEdge`:
`stored_class` recomputed from the threshold, `note` coalesced to `""`. -/
def storedEdgeRowOf (edge : SpanEdge) (link_threshold : ℚ) : StoredEdge :=
  { from_anchor := edge.from_anchor,
    to_anchor := edge.to_anchor,
    confidence := edge.confidence,
    location_delta := encode_location_delta edge.location_delta,
    cardinality := encode_cardinality edge.cardinality,
    agent_link := if edge.agent_link then 1 else 0,
    note := edge.note.getD "",
    stored_class := encode_stored_class (edge.stored_class link_threshold) }

/-- `SqliteIndex::insert_edge_on`. -/
def insert_edge_on (st : SqliteIndex) (edge : SpanEdge) (link_threshold : ℚ) :
    Except SqlError SqliteIndex := do
  let _ ← validate_anchor edge.from_anchor
  let _ ← validate_anchor edge.to_anchor
  Except.ok { st with edges := insertEdgeRow st.edges (storedEdgeRowOf edge link_threshold) }

/-- `SqliteIndex::insert_edge` (public API: validates anchors then inserts). -/
def insert_edge (st : SqliteIndex) (edge : SpanEdge) (link_threshold : ℚ) :
    Except SqlError SqliteIndex := do
  let _ ← validate_anchor edge.from_anchor
  let _ ← validate_anchor edge.to_anchor
  insert_edge_on st edge link_threshold

/-- `SqliteIndex::insert_tombstone_on`: one row per anchor hash, each
validated before its insert. -/
def tombstoneRowOf (anchor : String) (tombstone : Tombstone) : TombstoneRow :=
  { anchor,
    tape_id := tombstone.tape_id,
    event_offset := tombstone.event_offset,
    file_path := tombstone.file_path,
    range_start := tombstone.range_at_deletion.start,
    range_end := tombstone.range_at_deletion.end_,
    timestamp := tombstone.timestamp }

def insert_tombstone_on (st : SqliteIndex) (tombstone : Tombstone) :
    Except SqlError SqliteIndex :=
  tombstone.anchor_hashes.foldlM
    (fun s anchor => do
      let _ ← validate_anchor anchor
      let row := tombstoneRowOf anchor tombstone
      Except.ok { s with tombstones := insertTombstoneRow s.tombstones row })
    st

/-! ### Queries -/

/-- `ORDER BY timestamp ASC, tape_id ASC, event_offset ASC` on evidence rows
(the tie-break among fully equal keys is implementation-defined in SQL; the
model uses a stable sort). -/
def evidenceLe (a b : EvidenceRow) : Prop :=
  a.timestamp < b.timestamp ∨
    (a.timestamp = b.timestamp ∧
      (a.tape_id < b.tape_id ∨ (a.tape_id = b.tape_id ∧ a.event_offset ≤ b.event_offset)))

instance : DecidableRel evidenceLe := fun a b => by unfold evidenceLe; infer_instance

/-- `SqliteIndex::evidence_for_anchor`. -/
def evidence_for_anchor (st : SqliteIndex) (anchor : String) : List EvidenceFragmentRef :=
  (List.insertionSort evidenceLe (st.evidence.filter (fun r => r.anchor = anchor))).map
    (fun r =>
      { tape_id := r.tape_id,
        event_offset := r.event_offset,
        kind := decode_evidence_kind r.kind,
        file_path := r.file_path,
        timestamp := r.timestamp })

/-- `ORDER BY confidence DESC` on stored edges. -/
def confidenceDesc (a b : StoredEdge) : Prop :=
  b.confidence ≤ a.confidence

instance : DecidableRel confidenceDesc := fun a b => by unfold confidenceDesc; infer_instance

/-- Row-to-`EdgeRow` conversion performed inline by `outbound_edges` /
`inbound_edges`: decode enum strings, read `agent_link` as `≠ 0`, collapse an
empty note to `None`. -/
def decodeEdgeRow (r : StoredEdge) : EdgeRow :=
  { from_anchor := r.from_anchor,
    to_anchor := r.to_anchor,
    confidence := r.confidence,
    location_delta := decode_location_delta r.location_delta,
    cardinality := decode_cardinality r.cardinality,
    agent_link := r.agent_link ≠ 0,
    note := if r.note = "" then none else some r.note,
    stored_class := decode_stored_class r.stored_class }

/-- The `continue`-filter of `outbound_edges` / `inbound_edges`: a row is
skipped iff `!include_forensics && !agent_link && (location_only || confidence
< min_confidence)`; this predicate keeps the rows that are pushed. -/
def edgeVisible (min_confidence : ℚ) (include_forensics : Bool) (r : StoredEdge) : Bool :=
  !(!include_forensics && !(decide (r.agent_link ≠ 0)) &&
    (decide (decode_stored_class r.stored_class = StoredEdgeClass.LocationOnly) ||
     decide (r.confidence < min_confidence)))

/-- `SqliteIndex::outbound_edges`. -/
def outbound_edges (st : SqliteIndex) (from_anchor : String) (min_confidence : ℚ)
    (include_forensics : Bool) : List EdgeRow :=
  (((List.insertionSort confidenceDesc
      (st.edges.filter (fun r => r.from_anchor = from_anchor))).filter
      (edgeVisible min_confidence include_forensics)).map decodeEdgeRow)

/-- `SqliteIndex::inbound_edges`. -/
def inbound_edges (st : SqliteIndex) (to_anchor : String) (min_confidence : ℚ)
    (include_forensics : Bool) : List EdgeRow :=
  (((List.insertionSort confidenceDesc
      (st.edges.filter (fun r => r.to_anchor = to_anchor))).filter
      (edgeVisible min_confidence include_forensics)).map decodeEdgeRow)

/-- `ORDER BY event_offset ASC` on tombstone rows. -/
def tombstoneOffsetLe (a b : TombstoneRow) : Prop :=
  a.event_offset ≤ b.event_offset

instance : DecidableRel tombstoneOffsetLe := fun a b => by
  unfold tombstoneOffsetLe; infer_instance

/-- `SqliteIndex::tombstones_for_anchor`. -/
def tombstones_for_anchor (st : SqliteIndex) (anchor : String) : List Tombstone :=
  (List.insertionSort tombstoneOffsetLe (st.tombstones.filter (fun r => r.anchor = anchor))).map
    (fun r =>
      { anchor_hashes := [anchor],
        tape_id := r.tape_id,
        event_offset := r.event_offset,
        file_path := r.file_path,
        range_at_deletion := { start := r.range_start, end_ := r.range_end },
        timestamp := r.timestamp })

/-! ### Ingest (`SqliteIndex::ingest_tape_events`) -/

def encode_span_link_anchor (file : String) (range : FileRange) : String :=
  "span:" ++ file ++ ":" ++ toString range.start ++ "-" ++ toString range.end_

/-- The confidence computed for a `code.edit` edge when both hashes are
present: `1.0` on equal hashes, else `similarity` defaulted to `0.0`. -/
def editConfidence (before_hash after_hash : String) (similarity : Option ℚ) : ℚ :=
  if before_hash = after_hash then 1 else similarity.getD 0

/-- The body of the per-event `match` inside `ingest_tape_events`. -/
def processEvent (tape_id : String) (link_threshold : ℚ) (st : SqliteIndex)
    (item : TapeEventAt) : Except SqlError SqliteIndex :=
  match item.event.data with
  | TapeEventData.CodeRead read =>
      let fragment : EvidenceFragmentRef :=
        { tape_id, event_offset := item.offset, kind := EvidenceKind.Read,
          file_path := read.file, timestamp := item.event.timestamp }
      read.anchor_hashes.foldlM (fun s anchor => insert_evidence_on s anchor fragment) st
  | TapeEventData.CodeEdit edit => do
      let st ←
        match edit.before_hash with
        | some before_hash =>
            insert_evidence_on st before_hash
              { tape_id, event_offset := item.offset, kind := EvidenceKind.Edit,
                file_path := edit.file, timestamp := item.event.timestamp }
        | none => Except.ok st
      let st ←
        match edit.after_hash with
        | some after_hash =>
            insert_evidence_on st after_hash
              { tape_id, event_offset := item.offset, kind := EvidenceKind.Edit,
                file_path := edit.file, timestamp := item.event.timestamp }
        | none => Except.ok st
      let st ←
        match edit.before_hash, edit.after_hash with
        | some before_hash, some after_hash => do
            let confidence := editConfidence before_hash after_hash edit.similarity
            let _ ← validate_confidence confidence
            insert_edge_on st
              { from_anchor := before_hash, to_anchor := after_hash, confidence,
                location_delta := LocationDelta.Same, cardinality := Cardinality.OneToOne,
                agent_link := false, note := none }
              link_threshold
        | _, _ => Except.ok st
      match edit.after_hash, edit.before_hash with
      | none, some before_hash =>
          let range := ((edit.before_range.or edit.after_range).getD { start := 0, end_ := 0 })
          insert_tombstone_on st
            { anchor_hashes := [before_hash], tape_id, event_offset := item.offset,
              file_path := edit.file, range_at_deletion := range,
              timestamp := item.event.timestamp }
      | _, _ => Except.ok st
  | TapeEventData.SpanLink link =>
      insert_edge_on st
        { from_anchor := encode_span_link_anchor link.from_file link.from_range,
          to_anchor := encode_span_link_anchor link.to_file link.to_range,
          confidence := 1, location_delta := LocationDelta.Moved,
          cardinality := Cardinality.OneToOne, agent_link := true, note := link.note }
        link_threshold
  | TapeEventData.Meta _ => Except.ok st
  | TapeEventData.Other _ => Except.ok st

/-- `SqliteIndex::ingest_tape_events`: fold the events inside one
transaction; the first failing event aborts the whole fold. -/
def ingest_tape_events (st : SqliteIndex) (tape_id : String) (events : List TapeEventAt)
    (link_threshold : ℚ) : Except SqlError SqliteIndex :=
  events.foldlM (processEvent tape_id link_threshold) st

/-- Transaction semantics of `ingest_tape_events` as seen by later queries:
commit the new state on success, roll back to the caller's state on error. -/
def ingestRun (st : SqliteIndex) (tape_id : String) (events : List TapeEventAt)
    (link_threshold : ℚ) : SqliteIndex :=
  match ingest_tape_events st tape_id events link_threshold with
  | Except.ok st' => st'
  | Except.error _ => st

/-- An event on which ingest's validation fails (empty anchor string or
out-of-range computed edge confidence); derived from the validator calls made
by `processEvent`. -/
def eventInvalid (item : TapeEventAt) : Bool :=
  match item.event.data with
  | TapeEventData.CodeRead read => read.anchor_hashes.any (fun a => a = "")
  | TapeEventData.CodeEdit edit =>
      decide (edit.before_hash = some "") || decide (edit.after_hash = some "") ||
      (match edit.before_hash, edit.after_hash with
       | some before_hash, some after_hash =>
           let c := editConfidence before_hash after_hash edit.similarity
           !(decide (0 ≤ c ∧ c ≤ 1))
       | _, _ => false)
  | TapeEventData.SpanLink _ => false
  | TapeEventData.Meta _ => false
  | TapeEventData.Other _ => false

/-! ## Explain traversal (`src/query/explain.rs`) -/

/-- `MIN_CONFIDENCE_DEFAULT = 0.50` as an explicit reduced fraction. -/
def MIN_CONFIDENCE_DEFAULT : ℚ := ⟨1, 2, by decide, by decide⟩
def MAX_FANOUT_DEFAULT : Nat := 50
def MAX_EDGES_DEFAULT : Nat := 500
def MAX_DEPTH_DEFAULT : Nat := 10

structure ExplainTraversal where
  min_confidence : ℚ
  max_fanout : Nat
  max_edges : Nat
  max_depth : Nat
deriving DecidableEq, Repr

def ExplainTraversal.default : ExplainTraversal :=
  { min_confidence := MIN_CONFIDENCE_DEFAULT, max_fanout := MAX_FANOUT_DEFAULT,
    max_edges := MAX_EDGES_DEFAULT, max_depth := MAX_DEPTH_DEFAULT }

/-- The inner `for edge in edges.take(max_fanout)` loop of `retrieve_lineage`:
break once `out` reached `max_edges`; push unvisited `from_anchor`s at
`depth + 1`; append each surviving edge to `out`. -/
def expandEdges (t : ExplainTraversal) (depth : Nat) (visited : List String) :
    List EdgeRow → List (String × Nat) → List EdgeRow → List (String × Nat) × List EdgeRow
  | [], queue, out => (queue, out)
  | edge :: more, queue, out =>
      if t.max_edges ≤ out.length then (queue, out)
      else
        let queue := if edge.from_anchor ∈ visited then queue
                     else queue ++ [(edge.from_anchor, depth + 1)]
        expandEdges t depth visited more queue (out ++ [edge])

/-- The `while let Some((anchor, depth)) = queue.pop_front()` loop of
`retrieve_lineage`, with an explicit fuel that bounds the number of
iterations; `none` means the fuel ran out before the queue emptied or the
edge budget was hit. -/
def retrieveLineageLoop (st : SqliteIndex) (t : ExplainTraversal) (include_forensics : Bool) :
    Nat → List (String × Nat) → List String → List EdgeRow → Option (List EdgeRow)
  | _, [], _, out => some out
  | 0, _ :: _, _, _ => none
  | fuel + 1, (anchor, depth) :: rest, visited, out =>
      if anchor ∈ visited then
        retrieveLineageLoop st t include_forensics fuel rest visited out
      else
        let visited := anchor :: visited
        if t.max_edges ≤ out.length then some out
        else if t.max_depth ≤ depth then
          retrieveLineageLoop st t include_forensics fuel rest visited out
        else
          let edges := (inbound_edges st anchor t.min_confidence include_forensics).take
            t.max_fanout
          let (queue, out) := expandEdges t depth visited edges rest out
          retrieveLineageLoop st t include_forensics fuel queue visited out

/-- Fuel sufficient for `retrieveLineageLoop` to run to completion: see the
termination theorem for claim C9.  `anchorUniverse` collects every anchor that
can ever sit in the work queue. -/
def anchorUniverse (st : SqliteIndex) (anchors : List String) : Finset String :=
  anchors.toFinset ∪ (st.edges.map (fun r => r.from_anchor)).toFinset

def lineageFuelBound (st : SqliteIndex) (anchors : List String) : Nat :=
  anchors.length + (st.edges.length + 1) * (anchorUniverse st anchors).card

/-- `retrieve_lineage` from `src/query/explain.rs`, with the loop run on the
explicit fuel bound. -/
def retrieve_lineage (st : SqliteIndex) (anchors : List String) (t : ExplainTraversal)
    (include_forensics : Bool) : Option (List EdgeRow) :=
  retrieveLineageLoop st t include_forensics (lineageFuelBound st anchors)
    (anchors.map (fun a => (a, 0))) [] []

/-! ## Fingerprint (`src/anchor/winnow.rs`)

`hash_str` uses the external `sha2` crate; SHA-256 is modelled below as a
pure function on byte lists (`Nat`s below 256), with 32-bit words as `Nat`
reduced `% 2^32`.  Character classification (`is_alphanumeric`,
`is_whitespace`, `to_ascii_lowercase`) is embedded through Lean's `Char`
predicates, which agree with Rust's on ASCII text; both the code-side and the
spec-side definitions of claim C8 share this tokenizer, so the claim's
pipeline equality does not depend on the classifier. -/

def u32Mod : Nat := 4294967296

/-- UTF-8 encoding of one scalar value (Rust `str::as_bytes`). -/
def utf8Bytes (c : Char) : List Nat :=
  let n := c.toNat
  if n < 128 then [n]
  else if n < 2048 then [192 ||| (n >>> 6), 128 ||| (n &&& 63)]
  else if n < 65536 then
    [224 ||| (n >>> 12), 128 ||| ((n >>> 6) &&& 63), 128 ||| (n &&& 63)]
  else
    [240 ||| (n >>> 18), 128 ||| ((n >>> 12) &&& 63), 128 ||| ((n >>> 6) &&& 63),
     128 ||| (n &&& 63)]

def strBytes (s : String) : List Nat :=
  s.data.foldr (fun c acc => utf8Bytes c ++ acc) []

def rotr32 (n x : Nat) : Nat := ((x >>> n) ||| (x <<< (32 - n))) % u32Mod

def bigSigma0 (x : Nat) : Nat := rotr32 2 x ^^^ rotr32 13 x ^^^ rotr32 22 x
def bigSigma1 (x : Nat) : Nat := rotr32 6 x ^^^ rotr32 11 x ^^^ rotr32 25 x
def smallSigma0 (x : Nat) : Nat := rotr32 7 x ^^^ rotr32 18 x ^^^ (x >>> 3)
def smallSigma1 (x : Nat) : Nat := rotr32 17 x ^^^ rotr32 19 x ^^^ (x >>> 10)
def chBits (x y z : Nat) : Nat := (x &&& y) ^^^ ((x ^^^ 4294967295) &&& z)
def majBits (x y z : Nat) : Nat := (x &&& y) ^^^ (x &&& z) ^^^ (y &&& z)

/-- The eight initial SHA-256 state words (decimal). -/
def sha256H0 : List Nat :=
  [1779033703, 3144134277, 1013904242, 2773480762,
   1359893119, 2600822924, 528734635, 1541459225]

/-- The 64 SHA-256 round constants (decimal). -/
def sha256K : List Nat :=
  [1116352408, 1899447441, 3049323471, 3921009573,
   961987163, 1508970993, 2453635748, 2870763221,
   3624381080, 310598401, 607225278, 1426881987,
   1925078388, 2162078206, 2614888103, 3248222580,
   3835390401, 4022224774, 264347078, 604807628,
   770255983, 1249150122, 1555081692, 1996064986,
   2554220882, 2821834349, 2952996808, 3210313671,
   3336571891, 3584528711, 113926993, 338241895,
   666307205, 773529912, 1294757372, 1396182291,
   1695183700, 1986661051, 2177026350, 2456956037,
   2730485921, 2820302411, 3259730800, 3345764771,
   3516065817, 3600352804, 4094571909, 275423344,
   430227734, 506948616, 659060556, 883997877,
   958139571, 1322822218, 1537002063, 1747873779,
   1955562222, 2024104815, 2227730452, 2361852424,
   2428436474, 2756734187, 3204031479, 3329325298]

def bytesBE (k n : Nat) : List Nat :=
  (List.range k).map (fun i => (n >>> (8 * (k - 1 - i))) % 256)

def sha256Pad (msg : List Nat) : List Nat :=
  let padZeros := (119 - (msg.length % 64)) % 64
  msg ++ [128] ++ List.replicate padZeros 0 ++ bytesBE 8 (msg.length * 8)

def chunksOf (n : Nat) (l : List Nat) : List (List Nat) :=
  if h : n = 0 ∨ l = [] then []
  else (l.take n) :: chunksOf n (l.drop n)
termination_by l.length
decreasing_by
  push_neg at h
  simp only [List.length_drop]
  exact Nat.sub_lt (List.length_pos.mpr h.2) (Nat.pos_of_ne_zero h.1)

def wordsOf (block : List Nat) : List Nat :=
  (List.range 16).map (fun i =>
    block.getD (4 * i) 0 * 16777216 + block.getD (4 * i + 1) 0 * 65536 +
    block.getD (4 * i + 2) 0 * 256 + block.getD (4 * i + 3) 0)

def sha256Schedule (ws : List Nat) : List Nat :=
  (List.range 48).foldl
    (fun acc j =>
      let i := j + 16
      acc ++ [(smallSigma1 (acc.getD (i - 2) 0) + acc.getD (i - 7) 0 +
               smallSigma0 (acc.getD (i - 15) 0) + acc.getD (i - 16) 0) % u32Mod])
    ws

def sha256Compress (hs : List Nat) (block : List Nat) : List Nat :=
  let ws := sha256Schedule (wordsOf block)
  let step := fun (st : Nat × Nat × Nat × Nat × Nat × Nat × Nat × Nat) (i : Nat) =>
    match st with
    | (a, b, c, d, e, f, g, hh) =>
        let t1 := (hh + bigSigma1 e + chBits e f g + sha256K.getD i 0 + ws.getD i 0) % u32Mod
        let t2 := (bigSigma0 a + majBits a b c) % u32Mod
        ((t1 + t2) % u32Mod, a, b, c, (d + t1) % u32Mod, e, f, g)
  let init := (hs.getD 0 0, hs.getD 1 0, hs.getD 2 0, hs.getD 3 0,
               hs.getD 4 0, hs.getD 5 0, hs.getD 6 0, hs.getD 7 0)
  match (List.range 64).foldl step init with
  | (a, b, c, d, e, f, g, hh) =>
      [(hs.getD 0 0 + a) % u32Mod, (hs.getD 1 0 + b) % u32Mod,
       (hs.getD 2 0 + c) % u32Mod, (hs.getD 3 0 + d) % u32Mod,
       (hs.getD 4 0 + e) % u32Mod, (hs.getD 5 0 + f) % u32Mod,
       (hs.getD 6 0 + g) % u32Mod, (hs.getD 7 0 + hh) % u32Mod]

def sha256Bytes (msg : List Nat) : List Nat :=
  ((chunksOf 64 (sha256Pad msg)).foldl sha256Compress sha256H0).foldr
    (fun w acc => bytesBE 4 w ++ acc) []

/-- `hash_str`: first 8 bytes of the SHA-256 digest, big-endian, as a `u64`. -/
def hash_str (input : String) : Nat :=
  ((sha256Bytes (strBytes input)).take 8).foldl (fun acc b => acc * 256 + b) 0

def DEFAULT_K_GRAM : Nat := 5
def DEFAULT_WINDOW : Nat := 4

/-- One character step of `tokenize`: accumulate word characters (lowercased)
into the current token, flush the current token on a boundary, and emit a
non-whitespace boundary character as its own token. -/
def tokenizeStep (st : List String × List Char) (ch : Char) : List String × List Char :=
  if ch.isAlphanum ∨ ch = '_' then (st.1, st.2 ++ [ch.toLower])
  else
    let tokens := if st.2 = [] then st.1 else st.1 ++ [String.mk st.2]
    let tokens := if ch.isWhitespace then tokens else tokens ++ [String.mk [ch]]
    (tokens, [])

/-- `tokenize` from `src/anchor/winnow.rs`. -/
def tokenize (text : String) : List String :=
  let res := text.data.foldl tokenizeStep ([], [])
  if res.2 = [] then res.1 else res.1 ++ [String.mk res.2]

/-- `kgram_hashes`: hashes of the `n - k + 1` k-grams joined by `\x1f`. -/
def kgram_hashes (tokens : List String) (k : Nat) : List Nat :=
  if tokens.length < k then []
  else
    (List.range (tokens.length - k + 1)).map
      (fun start => hash_str (String.intercalate "\x1f" ((tokens.drop start).take k)))

/-- The `for (idx, value) in window_slice.iter().enumerate().skip(1)` scan of
`winnowed_features`, carrying `(min_pos, min_value)` and accepting a later
position on `value ≤ min_value`. -/
def windowScanGo : List Nat → Nat → Nat → Nat → Nat × Nat
  | [], _, min_pos, min_value => (min_pos, min_value)
  | value :: rest, idx, min_pos, min_value =>
      if value ≤ min_value then windowScanGo rest (idx + 1) idx value
      else windowScanGo rest (idx + 1) min_pos min_value

/-- `window_slice[min_pos]` after the scan. -/
def windowSelected (ws : List Nat) : Nat :=
  match ws with
  | [] => 0
  | w0 :: rest => ws.getD (windowScanGo rest 1 0 w0).1 0

/-- The `seen`/`out` pair updated by `if seen.insert(h) { out.push(h) }`. -/
def dedupStep (st : List Nat × List Nat) (h : Nat) : List Nat × List Nat :=
  if h ∈ st.1 then st else (h :: st.1, st.2 ++ [h])

/-- `winnowed_features` from `src/anchor/winnow.rs`. -/
def winnowed_features (tokens : List String) (k window : Nat) : List Nat :=
  if tokens = [] ∨ k = 0 ∨ window = 0 then []
  else
    let kgrams := kgram_hashes tokens k
    if kgrams = [] then []
    else if kgrams.length ≤ window then
      (kgrams.foldl dedupStep ([], [])).2
    else
      ((List.range (kgrams.length - window + 1)).foldl
        (fun st start => dedupStep st (windowSelected ((kgrams.drop start).take window)))
        ([], [])).2

def hexDigitChar (n : Nat) : Char :=
  if n < 10 then Char.ofNat (48 + n) else Char.ofNat (87 + n)

/-- The `{h:016x}` rendering: 16 lowercase hex digits, zero padded. -/
def toHex16 (n : Nat) : String :=
  String.mk ((List.range 16).map (fun i => hexDigitChar ((n >>> (4 * (15 - i))) % 16)))

structure SpanAnchor where
  fingerprint : String
deriving DecidableEq, Repr

/-- `fingerprint_text` from `src/anchor/winnow.rs`. -/
def fingerprint_text (text : String) : SpanAnchor :=
  let tokens := tokenize text
  let features := winnowed_features tokens DEFAULT_K_GRAM DEFAULT_WINDOW
  if features = [] then
    { fingerprint := "fallback:" ++ toString (hash_str text) }
  else
    { fingerprint := "winnow:" ++ String.intercalate "," (features.map toHex16) }

/-! ### Reference fingerprint algorithm (spec §4.1), for claim C8 -/

def dedupFirstAux (seen : List Nat) : List Nat → List Nat
  | [] => []
  | h :: t => if h ∈ seen then dedupFirstAux seen t else h :: dedupFirstAux (h :: seen) t

/-- Deduplication preserving first-seen order. -/
def dedupFirst (l : List Nat) : List Nat := dedupFirstAux [] l

/-- Minimum of a window of hashes (the *value* selected by winnowing; the
rightmost-position tie-break of the spec picks among equal values, so the
selected value is the window minimum). -/
def listMin : List Nat → Nat
  | [] => 0
  | w0 :: rest => rest.foldl Nat.min w0

/-- The reference algorithm, written from the spec's words (§4.1): fewer
tokens than `k` emits `fallback:<decimal>` of the hash of the raw text; at
most `w` k-grams skips winnowing and emits the deduplicated k-gram list;
otherwise each of the `len - w + 1` windows selects its minimum (rightmost
among ties) and the selections are deduplicated in first-seen order. -/
def fingerprintSpec (text : String) : String :=
  let tokens := tokenize text
  if tokens.length < DEFAULT_K_GRAM then
    "fallback:" ++ toString (hash_str text)
  else
    let kgrams := kgram_hashes tokens DEFAULT_K_GRAM
    if kgrams.length ≤ DEFAULT_WINDOW then
      "winnow:" ++ String.intercalate "," ((dedupFirst kgrams).map toHex16)
    else
      let selected := (List.range (kgrams.length - DEFAULT_WINDOW + 1)).map
        (fun start => listMin ((kgrams.drop start).take DEFAULT_WINDOW))
      "winnow:" ++ String.intercalate "," ((dedupFirst selected).map toHex16)

/-! ## Concrete fixtures used by witnesses and counterexamples -/

/-- A `code.read` event with one anchor hash. -/
def readEvent (anchor file : String) (offset : Nat) : TapeEventAt :=
  { offset,
    event := { timestamp := "2026-02-22T00:00:00Z",
               data := TapeEventData.CodeRead
                 { file, range := { start := 1, end_ := 1 }, anchor_hashes := [anchor] } } }

/-- The deserialized form of the tape line
`{"t":"2026-02-22T00:00:00Z","k":"code.edit","file":"src/lib.rs",
"before_hash":"x","after_hash":"y","similarity":0.80}`: the `similarity` key
has no corresponding `RawEvent` field in `src/tape/event.rs`, so
deserialization drops it. -/
def c1Raw : RawEvent :=
  { timestamp := "2026-02-22T00:00:00Z", kind := "code.edit", file := some "src/lib.rs",
    before_hash := some "x", after_hash := some "y" }

def c1Tape : List TapeEventAt := [{ offset := 0, event := c1Raw.into_tape_event }]

def c6Link : TapeEventAt :=
  { offset := 5,
    event := { timestamp := "2026-02-22T00:00:03Z",
               data := TapeEventData.SpanLink
                 { from_file := "a.rs", from_range := { start := 1, end_ := 2 },
                   to_file := "b.rs", to_range := { start := 10, end_ := 20 },
                   note := some "extract" } } }

def c6Edge : StoredEdge :=
  { from_anchor := "span:a.rs:1-2", to_anchor := "span:b.rs:10-20", confidence := 1,
    location_delta := "moved", cardinality := "1:1", agent_link := 1, note := "extract",
    stored_class := "lineage" }

def c6Index : SqliteIndex := { evidence := [], edges := [c6Edge], tombstones := [] }

/-- A `code.edit` whose similarity `1.2` is out of range while
`before_hash = after_hash = "x"`. -/
def c7EqualEdit : TapeEventAt :=
  { offset := 1,
    event := { timestamp := "2026-02-22T00:00:01Z",
               data := TapeEventData.CodeEdit
                 { file := "src/lib.rs", before_range := some { start := 10, end_ := 12 },
                   after_range := some { start := 10, end_ := 13 },
                   before_hash := some "x", after_hash := some "x",
                   similarity := some ⟨6, 5, by decide, by decide⟩ } } }

/-- A `code.edit` with out-of-range similarity `1.2` and distinct hashes. -/
def c7BadEdit : TapeEventAt :=
  { offset := 1,
    event := { timestamp := "2026-02-22T00:00:01Z",
               data := TapeEventData.CodeEdit
                 { file := "src/lib.rs", before_range := some { start := 10, end_ := 12 },
                   after_range := some { start := 10, end_ := 13 },
                   before_hash := some "a", after_hash := some "b",
                   similarity := some ⟨6, 5, by decide, by decide⟩ } } }

/-- Index state after ingesting `[c7EqualEdit]` into an empty index. -/
def c7Index : SqliteIndex :=
  { evidence := [{ anchor := "x", tape_id := "tape-1", event_offset := 1, kind := "edit",
                   file_path := "src/lib.rs", timestamp := "2026-02-22T00:00:01Z" }],
    edges := [{ from_anchor := "x", to_anchor := "x", confidence := 1,
                location_delta := "same", cardinality := "1:1", agent_link := 0,
                note := "", stored_class := "lineage" }],
    tombstones := [] }

/-- Index state after ingesting `[readEvent "a" "src/lib.rs" 0]` as tape
"tape-1" into the empty index. -/
def c5Index : SqliteIndex :=
  { evidence := [{ anchor := "a", tape_id := "tape-1", event_offset := 0, kind := "read",
                   file_path := "src/lib.rs", timestamp := "2026-02-22T00:00:00Z" }],
    edges := [], tombstones := [] }

/-- An edge with an explicitly empty note, for the C10 witness. -/
def c10Edge : SpanEdge :=
  { from_anchor := "a", to_anchor := "b", confidence := 1,
    location_delta := LocationDelta.Same, cardinality := Cardinality.OneToOne,
    agent_link := false, note := some "" }

/-- Index state after inserting `c10Edge` into the empty index. -/
def c10Index : SqliteIndex :=
  { evidence := [], edges := [storedEdgeRowOf c10Edge LINK_THRESHOLD_DEFAULT],
    tombstones := [] }

/-! ## Theorems -/

theorem LINK_THRESHOLD_DEFAULT_eq : LINK_THRESHOLD_DEFAULT = 0.30 := by
  rw [LINK_THRESHOLD_DEFAULT, Rat.mk'_eq_divInt, Rat.divInt_eq_div]; norm_num

theorem MIN_CONFIDENCE_DEFAULT_eq : MIN_CONFIDENCE_DEFAULT = 0.50 := by
  rw [MIN_CONFIDENCE_DEFAULT, Rat.mk'_eq_divInt, Rat.divInt_eq_div]; norm_num

theorem lineage_ne_location_only :
    StoredEdgeClass.Lineage ≠ StoredEdgeClass.LocationOnly := by decide

/-- C3: For every edge and every link_threshold, the stored class equals
Lineage if and only if agent_link is true or confidence ≥ link_threshold, and
otherwise equals LocationOnly; at the boundary (confidence equal to the
threshold, agent_link false) the ≥ comparison makes the class Lineage. -/
theorem stored_class_pure_function (e : SpanEdge) (link_threshold : ℚ) :
    (e.stored_class link_threshold = StoredEdgeClass.Lineage ↔
      (e.agent_link = true ∨ link_threshold ≤ e.confidence)) ∧
    (e.stored_class link_threshold = StoredEdgeClass.LocationOnly ↔
      (e.agent_link = false ∧ e.confidence < link_threshold)) := by
  unfold SpanEdge.stored_class
  by_cases h : e.agent_link = true ∨ link_threshold ≤ e.confidence
  · rw [if_pos h]
    refine ⟨⟨fun _ => h, fun _ => rfl⟩, ⟨fun hc => absurd hc lineage_ne_location_only, ?_⟩⟩
    rintro ⟨hfalse, hlt⟩
    rcases h with h | h
    · rw [hfalse] at h; cases h
    · exact absurd h (not_le.mpr hlt)
  · rw [if_neg h]
    have h1 : e.agent_link = false := by
      cases hb : e.agent_link
      · rfl
      · exact absurd (Or.inl hb) h
    have h2 : e.confidence < link_threshold := not_le.mp (fun hle => h (Or.inr hle))
    exact ⟨⟨fun hc => absurd hc.symm lineage_ne_location_only, fun hor => absurd hor h⟩,
           ⟨fun _ => ⟨h1, h2⟩, fun _ => rfl⟩⟩

/-- C6: Ingesting a span.link event with from_file "a.rs", from_range [1,2],
to_file "b.rs", to_range [10,20], note "extract" stores exactly one edge from
synthetic anchor "span:a.rs:1-2" to "span:b.rs:10-20" with confidence 1.0,
location_delta Moved, cardinality 1:1, agent_link true, and note "extract",
and outbound_edges("span:a.rs:1-2", 0.99, false) returns that edge. -/
theorem span_link_stores_agent_edge :
    ingest_tape_events emptyIndex "tape-2" [c6Link] LINK_THRESHOLD_DEFAULT =
      Except.ok c6Index ∧
    c6Index.edges = [c6Edge] ∧
    outbound_edges c6Index "span:a.rs:1-2" 0.99 false =
      [{ from_anchor := "span:a.rs:1-2", to_anchor := "span:b.rs:10-20", confidence := 1,
         location_delta := LocationDelta.Moved, cardinality := Cardinality.OneToOne,
         agent_link := true, note := some "extract",
         stored_class := StoredEdgeClass.Lineage }] := by
  refine ⟨?_, rfl, ?_⟩
  · rfl
  · rfl

/-- C1 (evaluation at the failing input): the tape line
`{"t":...,"k":"code.edit","file":"src/lib.rs","before_hash":"x",
"after_hash":"y","similarity":0.80}` deserializes to `c1Raw` — the
`similarity` key has no `RawEvent` field in `src/tape/event.rs` — and
`into_tape_event` builds the edit with `similarity = none`.  Ingest therefore
computes confidence `0.0`, classifies the edge `location_only` at the default
threshold `0.30`, and `outbound_edges("x", 0.50, false)` returns nothing,
contradicting the claimed confidence `0.80`, class `Lineage`, and visible
edge. -/
theorem code_edit_similarity_dropped_at_parse :
    c1Tape =
      [{ offset := 0,
         event := { timestamp := "2026-02-22T00:00:00Z",
                    data := TapeEventData.CodeEdit
                      { file := "src/lib.rs", before_range := none, after_range := none,
                        before_hash := some "x", after_hash := some "y",
                        similarity := none } } }] ∧
    (ingestRun emptyIndex "tape-1" c1Tape LINK_THRESHOLD_DEFAULT).edges =
      [{ from_anchor := "x", to_anchor := "y", confidence := 0, location_delta := "same",
         cardinality := "1:1", agent_link := 0, note := "",
         stored_class := "location_only" }] ∧
    outbound_edges (ingestRun emptyIndex "tape-1" c1Tape LINK_THRESHOLD_DEFAULT)
      "x" 0.50 false = [] :=
  ⟨rfl, rfl, rfl⟩

/-- C7 (counterexample): a tape whose single `code.edit` has similarity `1.2`
(outside `[0,1]`) with both hashes present and equal ingests successfully —
the confidence is forced to `1.0` before validation — and its rows remain,
refuting "for every tape ... ingest fails and no rows remain, including when
before_hash equals after_hash". -/
theorem out_of_range_similarity_equal_hashes_ingests :
    ingest_tape_events emptyIndex "tape-1" [c7EqualEdit] LINK_THRESHOLD_DEFAULT =
      Except.ok c7Index ∧
    c7Index.evidence ≠ [] ∧ c7Index.edges ≠ [] := by
  refine ⟨rfl, ?_, ?_⟩ <;> simp [c7Index]

/-! ### Error propagation through ingest -/

theorem except_ok_bind {α β : Type} (a : α) (f : α → Except SqlError β) :
    (Except.ok a >>= f) = f a := rfl

theorem except_error_bind {α β : Type} (e : SqlError) (f : α → Except SqlError β) :
    ((Except.error e : Except SqlError α) >>= f) = Except.error e := rfl

theorem validate_anchor_ok {anchor : String} (h : anchor ≠ "") :
    validate_anchor anchor = Except.ok () := by
  unfold validate_anchor; rw [if_neg h]

theorem insert_evidence_on_eq {st : SqliteIndex} {anchor : String}
    {fragment : EvidenceFragmentRef} (h : anchor ≠ "") :
    insert_evidence_on st anchor fragment =
      Except.ok
        { st with
          evidence := insertEvidenceRow st.evidence (evidenceRowOf anchor fragment) } := by
  unfold insert_evidence_on
  rw [validate_anchor_ok h, except_ok_bind]

theorem insert_evidence_on_empty (st : SqliteIndex) (fragment : EvidenceFragmentRef) :
    insert_evidence_on st "" fragment =
      Except.error (SqlError.InvalidParameterName "anchor_hash must not be empty") := rfl

theorem validate_confidence_ok {c : ℚ} (h : 0 ≤ c ∧ c ≤ 1) :
    validate_confidence c = Except.ok () := by
  unfold validate_confidence; rw [if_pos h]

theorem validate_confidence_bad {c : ℚ} (h : ¬(0 ≤ c ∧ c ≤ 1)) :
    validate_confidence c =
      Except.error (SqlError.InvalidParameterName "confidence must be in [0.0, 1.0]") := by
  unfold validate_confidence; rw [if_neg h]

theorem insert_edge_on_eq {st : SqliteIndex} {edge : SpanEdge} {thr : ℚ}
    (h1 : edge.from_anchor ≠ "") (h2 : edge.to_anchor ≠ "") :
    insert_edge_on st edge thr =
      Except.ok { st with edges := insertEdgeRow st.edges (storedEdgeRowOf edge thr) } := by
  unfold insert_edge_on
  rw [validate_anchor_ok h1, except_ok_bind, validate_anchor_ok h2, except_ok_bind]

theorem encode_span_link_anchor_ne_empty (file : String) (range : FileRange) :
    encode_span_link_anchor file range ≠ "" := by
  unfold encode_span_link_anchor
  intro h
  have hlen := congrArg String.length h
  rw [String.length_append, String.length_append, String.length_append,
    String.length_append, String.length_append] at hlen
  have h5 : ("span:" : String).length = 5 := rfl
  have h0 : ("" : String).length = 0 := rfl
  omega

/-- The `code.read` anchor fold of `processEvent` succeeds on all-nonempty
anchors, at every state. -/
theorem read_fold_ok (fragment : EvidenceFragmentRef) :
    ∀ (anchors : List String), (∀ a ∈ anchors, a ≠ "") → ∀ st, ∃ st',
      anchors.foldlM (fun s a => insert_evidence_on s a fragment) st = Except.ok st' := by
  intro anchors
  induction anchors with
  | nil => exact fun _ st => ⟨st, rfl⟩
  | cons a as ih =>
      intro h st
      rw [List.foldlM_cons, insert_evidence_on_eq (h a (List.mem_cons_self a as)),
        except_ok_bind]
      exact ih (fun x hx => h x (List.mem_cons_of_mem _ hx)) _

/-- The `code.read` anchor fold fails whenever some anchor is empty. -/
theorem read_fold_error (fragment : EvidenceFragmentRef) :
    ∀ (anchors : List String), "" ∈ anchors → ∀ st, ∃ e,
      anchors.foldlM (fun s a => insert_evidence_on s a fragment) st = Except.error e := by
  intro anchors
  induction anchors with
  | nil => exact fun h => absurd h (List.not_mem_nil "")
  | cons a as ih =>
      intro h st
      by_cases ha : a = ""
      · subst ha
        rw [List.foldlM_cons, insert_evidence_on_empty, except_error_bind]
        exact ⟨_, rfl⟩
      · have has : "" ∈ as := by
          rcases List.mem_cons.mp h with h | h
          · exact absurd h.symm ha
          · exact h
        rw [List.foldlM_cons, insert_evidence_on_eq ha, except_ok_bind]
        exact ih has _

/-- The tombstone anchor fold succeeds on all-nonempty anchors. -/
theorem insert_tombstone_on_ok (t : Tombstone)
    (h : ∀ a ∈ t.anchor_hashes, a ≠ "") (st : SqliteIndex) :
    ∃ st', insert_tombstone_on st t = Except.ok st' := by
  unfold insert_tombstone_on
  revert h
  generalize t.anchor_hashes = anchors
  induction anchors generalizing st with
  | nil => exact fun _ => ⟨st, rfl⟩
  | cons a as ih =>
      intro h
      have ha := h a (List.mem_cons_self a as)
      rw [List.foldlM_cons]
      simp only [validate_anchor_ok ha, except_ok_bind]
      exact ih _ (fun x hx => h x (List.mem_cons_of_mem _ hx))

/-- A validation-clean event is processed successfully from any state. -/
theorem processEvent_ok (tape_id : String) (thr : ℚ) (item : TapeEventAt)
    (h : eventInvalid item = false) (st : SqliteIndex) :
    ∃ st', processEvent tape_id thr st item = Except.ok st' := by
  rcases hdata : item.event.data with read | edit | link | meta | kind
  · -- CodeRead
    simp only [eventInvalid, hdata] at h
    simp only [processEvent, hdata]
    refine read_fold_ok _ read.anchor_hashes ?_ st
    intro a ha hcontra
    subst hcontra
    have := List.any_eq_false.mp h "" ha
    simp at this
  · -- CodeEdit
    simp only [eventInvalid, hdata] at h
    simp only [processEvent, hdata]
    simp only [Bool.or_eq_false_iff] at h
    obtain ⟨⟨hb0, ha0⟩, hc0⟩ := h
    rcases hb : edit.before_hash with _ | b <;> rcases ha : edit.after_hash with _ | a
    · simp only [hb, ha]
      exact ⟨st, rfl⟩
    · -- before none, after some a
      rw [ha] at ha0
      have ha' : a ≠ "" := by
        intro hcontra; subst hcontra; simp at ha0
      simp only [hb, ha, except_ok_bind, insert_evidence_on_eq, ha', ne_eq,
        not_false_iff]
      exact ⟨_, rfl⟩
    · -- before some b, after none: evidence + tombstone
      rw [hb] at hb0
      have hb' : b ≠ "" := by
        intro hcontra; subst hcontra; simp at hb0
      simp only [hb, ha, except_ok_bind, insert_evidence_on_eq, hb', ne_eq,
        not_false_iff]
      exact insert_tombstone_on_ok _
        (by intro x hx; simp at hx; subst hx; exact hb') _
    · -- both hashes present: evidence twice + edge
      rw [hb] at hb0; rw [ha] at ha0
      have hb' : b ≠ "" := by intro hcontra; subst hcontra; simp at hb0
      have ha' : a ≠ "" := by intro hcontra; subst hcontra; simp at ha0
      rw [hb, ha] at hc0
      simp only at hc0
      have hc : 0 ≤ editConfidence b a edit.similarity ∧
          editConfidence b a edit.similarity ≤ 1 := by
        by_contra hcontra
        rw [decide_eq_false hcontra] at hc0
        simp at hc0
      simp only [hb, ha, except_ok_bind, insert_evidence_on_eq, hb', ha', ne_eq,
        not_false_iff, validate_confidence_ok hc, insert_edge_on_eq]
      exact ⟨_, rfl⟩
  · -- SpanLink
    simp only [processEvent, hdata]
    exact ⟨_, insert_edge_on_eq (encode_span_link_anchor_ne_empty _ _)
      (encode_span_link_anchor_ne_empty _ _)⟩
  · simp only [processEvent, hdata]
    exact ⟨st, rfl⟩
  · simp only [processEvent, hdata]
    exact ⟨st, rfl⟩

/-- A validation-failing event makes `processEvent` fail from any state. -/
theorem processEvent_error (tape_id : String) (thr : ℚ) (item : TapeEventAt)
    (h : eventInvalid item = true) (st : SqliteIndex) :
    ∃ e, processEvent tape_id thr st item = Except.error e := by
  rcases hdata : item.event.data with read | edit | link | meta | kind
  · -- CodeRead
    simp only [eventInvalid, hdata] at h
    simp only [processEvent, hdata]
    obtain ⟨x, hx, hx0⟩ := List.any_eq_true.mp h
    have hmem : "" ∈ read.anchor_hashes := by
      have : x = "" := by simpa using hx0
      exact this ▸ hx
    exact read_fold_error _ read.anchor_hashes hmem st
  · -- CodeEdit
    simp only [eventInvalid, hdata] at h
    simp only [processEvent, hdata]
    by_cases hb0 : edit.before_hash = some ""
    · simp only [hb0, insert_evidence_on_empty, except_error_bind]
      exact ⟨_, rfl⟩
    · by_cases ha0 : edit.after_hash = some ""
      · rcases hb : edit.before_hash with _ | b
        · simp only [hb, ha0, insert_evidence_on_empty, except_error_bind]
          exact ⟨_, rfl⟩
        · have hb' : b ≠ "" := by
            intro hcontra; subst hcontra; exact hb0 hb
          simp only [hb, ha0, except_ok_bind, insert_evidence_on_eq, hb', ne_eq,
            not_false_iff, insert_evidence_on_empty, except_error_bind]
          exact ⟨_, rfl⟩
      · -- both anchors nonempty where present; the invalidity is the confidence
        rcases hb : edit.before_hash with _ | b <;> rcases ha : edit.after_hash with _ | a <;>
          rw [hb, ha] at h
        · simp at h
        · rw [ha] at ha0; simp [ha0] at h
        · rw [hb] at hb0; simp [hb0] at h
        · have hb' : b ≠ "" := by intro hcontra; subst hcontra; exact hb0 hb
          have ha' : a ≠ "" := by intro hcontra; subst hcontra; exact ha0 ha
          have hc : ¬(0 ≤ editConfidence b a edit.similarity ∧
              editConfidence b a edit.similarity ≤ 1) := by
            simp only [hb', ha', Option.some.injEq, decide_eq_false, Bool.false_or,
              decide_False, Bool.not_eq_true', decide_eq_false_iff_not] at h
            exact h
          simp only [hb, ha, except_ok_bind, insert_evidence_on_eq, hb', ha', ne_eq,
            not_false_iff, validate_confidence_bad hc, except_error_bind]
          exact ⟨_, rfl⟩
  · simp only [eventInvalid, hdata] at h
    exact absurd h Bool.false_ne_true
  · simp only [eventInvalid, hdata] at h
    exact absurd h Bool.false_ne_true
  · simp only [eventInvalid, hdata] at h
    exact absurd h Bool.false_ne_true

/-- Any list of events containing a validation-failing one makes the whole
transaction fold fail. -/
theorem ingest_error_of_invalid (tape_id : String) (thr : ℚ) :
    ∀ (events : List TapeEventAt) (st : SqliteIndex),
      (∃ item ∈ events, eventInvalid item = true) →
      ∃ e, ingest_tape_events st tape_id events thr = Except.error e := by
  intro events
  induction events with
  | nil => rintro st ⟨item, hmem, _⟩; exact absurd hmem (List.not_mem_nil item)
  | cons i es ih =>
      rintro st ⟨item, hmem, hinv⟩
      unfold ingest_tape_events
      rw [List.foldlM_cons]
      by_cases hi : eventInvalid i = true
      · obtain ⟨e, he⟩ := processEvent_error tape_id thr i hi st
        rw [he, except_error_bind]
        exact ⟨e, rfl⟩
      · obtain ⟨st', hst'⟩ := processEvent_ok tape_id thr i (Bool.eq_false_iff.mpr hi) st
        rw [hst', except_ok_bind]
        have hmem' : item ∈ es := by
          rcases List.mem_cons.mp hmem with h | h
          · subst h; exact absurd hinv hi
          · exact h
        exact ih st' ⟨item, hmem', hinv⟩

/-- C2: Ingest of a tape is atomic: for every event list containing an event
that fails validation (for example a code.read whose anchor_hashes contains
the empty string), ingest_tape_events returns an error and the index
afterwards (the transaction rolled back) is unchanged — in particular every
`evidence_for_anchor` query reads exactly what it read before. -/
theorem ingest_atomic_on_invalid_event (st : SqliteIndex) (tape_id : String)
    (events : List TapeEventAt) (link_threshold : ℚ)
    (h : ∃ item ∈ events, eventInvalid item = true) :
    (∃ e, ingest_tape_events st tape_id events link_threshold = Except.error e) ∧
    ingestRun st tape_id events link_threshold = st ∧
    ∀ anchor, evidence_for_anchor (ingestRun st tape_id events link_threshold) anchor =
      evidence_for_anchor st anchor := by
  obtain ⟨e, herr⟩ := ingest_error_of_invalid tape_id link_threshold events st h
  have hrun : ingestRun st tape_id events link_threshold = st := by
    unfold ingestRun; rw [herr]
  exact ⟨⟨e, herr⟩, hrun, fun anchor => by rw [hrun]⟩

/-- Witness for C2: the S6 scenario — a valid `code.read` of anchor "a"
followed by a `code.read` whose anchor list contains the empty string; the
whole ingest fails and `evidence_for_anchor "a"` stays empty. -/
theorem ingest_atomic_on_invalid_event_witness :
    (∃ item ∈ [readEvent "a" "src/lib.rs" 0, readEvent "" "src/lib.rs" 1],
      eventInvalid item = true) ∧
    (∃ e, ingest_tape_events emptyIndex "tape-1"
      [readEvent "a" "src/lib.rs" 0, readEvent "" "src/lib.rs" 1]
      LINK_THRESHOLD_DEFAULT = Except.error e) ∧
    evidence_for_anchor (ingestRun emptyIndex "tape-1"
      [readEvent "a" "src/lib.rs" 0, readEvent "" "src/lib.rs" 1]
      LINK_THRESHOLD_DEFAULT) "a" = [] := by
  have hinv : ∃ item ∈ [readEvent "a" "src/lib.rs" 0, readEvent "" "src/lib.rs" 1],
      eventInvalid item = true :=
    ⟨readEvent "" "src/lib.rs" 1, by simp, rfl⟩
  have main := ingest_atomic_on_invalid_event emptyIndex "tape-1"
    [readEvent "a" "src/lib.rs" 0, readEvent "" "src/lib.rs" 1] LINK_THRESHOLD_DEFAULT hinv
  exact ⟨hinv, main.1, (main.2.2 "a").trans rfl⟩

/-- C7 (amended): for every tape containing a `code.edit` whose similarity
lies outside `[0,1]` with both hashes present and `before_hash ≠ after_hash`,
ingest of that tape fails and the transaction rolls back.  (When the hashes
are equal the similarity is ignored — the confidence is forced to `1.0` — and
ingest succeeds; see the counterexample.) -/
theorem out_of_range_similarity_fails_ingest (st : SqliteIndex) (tape_id : String)
    (events : List TapeEventAt) (link_threshold : ℚ)
    (h : ∃ item ∈ events, ∃ edit : CodeEditEvent,
      item.event.data = TapeEventData.CodeEdit edit ∧
      (∃ b, edit.before_hash = some b) ∧ (∃ a, edit.after_hash = some a) ∧
      edit.before_hash ≠ edit.after_hash ∧
      (∃ s, edit.similarity = some s ∧ (s < 0 ∨ 1 < s))) :
    (∃ e, ingest_tape_events st tape_id events link_threshold = Except.error e) ∧
    ingestRun st tape_id events link_threshold = st := by
  obtain ⟨item, hmem, edit, hdata, ⟨b, hb⟩, ⟨a, ha⟩, hne, s, hs, hrange⟩ := h
  have hba : b ≠ a := by
    intro hcontra; subst hcontra; exact hne (hb.trans ha.symm)
  have hc : ¬(0 ≤ editConfidence b a edit.similarity ∧
      editConfidence b a edit.similarity ≤ 1) := by
    unfold editConfidence
    rw [if_neg hba, hs]
    rintro ⟨h0, h1⟩
    rcases hrange with hr | hr
    · exact absurd h0 (not_le.mpr hr)
    · exact absurd h1 (not_le.mpr hr)
  have hinv : eventInvalid item = true := by
    simp only [eventInvalid, hdata, hb, ha]
    rw [decide_eq_false_iff_not.mpr hc]
    simp
  obtain ⟨e, herr⟩ := ingest_error_of_invalid tape_id link_threshold events st
    ⟨item, hmem, hinv⟩
  have hrun : ingestRun st tape_id events link_threshold = st := by
    unfold ingestRun; rw [herr]
  exact ⟨⟨e, herr⟩, hrun⟩

/-- Witness for the amended C7: a valid `code.read` followed by a `code.edit`
with hashes "a" ≠ "b" and similarity 6/5 = 1.2; the ingest fails and the
index rolls back to empty. -/
theorem out_of_range_similarity_fails_ingest_witness :
    (∃ e, ingest_tape_events emptyIndex "tape-1"
      [readEvent "anchor-1" "src/lib.rs" 0, c7BadEdit]
      LINK_THRESHOLD_DEFAULT = Except.error e) ∧
    ingestRun emptyIndex "tape-1" [readEvent "anchor-1" "src/lib.rs" 0, c7BadEdit]
      LINK_THRESHOLD_DEFAULT = emptyIndex :=
  out_of_range_similarity_fails_ingest emptyIndex "tape-1"
    [readEvent "anchor-1" "src/lib.rs" 0, c7BadEdit] LINK_THRESHOLD_DEFAULT
    ⟨c7BadEdit, by simp, _, rfl, ⟨"a", rfl⟩, ⟨"b", rfl⟩, by decide,
      ⟨6, 5, by decide, by decide⟩, rfl, Or.inr (by decide)⟩

/-! ### Query visibility -/

theorem mem_outbound_iff (st : SqliteIndex) (a : String) (mc : ℚ) (inc : Bool) (x : EdgeRow) :
    x ∈ outbound_edges st a mc inc ↔
      ∃ r, r ∈ st.edges ∧ r.from_anchor = a ∧ edgeVisible mc inc r = true ∧
        decodeEdgeRow r = x := by
  unfold outbound_edges
  constructor
  · intro hx
    simp only [List.mem_map, List.mem_filter, List.mem_insertionSort] at hx
    obtain ⟨r, ⟨⟨hmem, hfrom⟩, hvis⟩, hdec⟩ := hx
    exact ⟨r, hmem, by simpa using hfrom, hvis, hdec⟩
  · rintro ⟨r, hmem, hfrom, hvis, hdec⟩
    simp only [List.mem_map, List.mem_filter, List.mem_insertionSort]
    exact ⟨r, ⟨⟨hmem, by simpa using hfrom⟩, hvis⟩, hdec⟩

theorem mem_inbound_iff (st : SqliteIndex) (a : String) (mc : ℚ) (inc : Bool) (x : EdgeRow) :
    x ∈ inbound_edges st a mc inc ↔
      ∃ r, r ∈ st.edges ∧ r.to_anchor = a ∧ edgeVisible mc inc r = true ∧
        decodeEdgeRow r = x := by
  unfold inbound_edges
  constructor
  · intro hx
    simp only [List.mem_map, List.mem_filter, List.mem_insertionSort] at hx
    obtain ⟨r, ⟨⟨hmem, hto⟩, hvis⟩, hdec⟩ := hx
    exact ⟨r, hmem, by simpa using hto, hvis, hdec⟩
  · rintro ⟨r, hmem, hto, hvis, hdec⟩
    simp only [List.mem_map, List.mem_filter, List.mem_insertionSort]
    exact ⟨r, ⟨⟨hmem, by simpa using hto⟩, hvis⟩, hdec⟩

/-- The Boolean skip-filter of the edge queries, characterized as the spec's
visibility rule. -/
theorem edgeVisible_iff (mc : ℚ) (inc : Bool) (r : StoredEdge) :
    edgeVisible mc inc r = true ↔
      (inc = true ∨ r.agent_link ≠ 0 ∨
        (decode_stored_class r.stored_class = StoredEdgeClass.Lineage ∧
          mc ≤ r.confidence)) := by
  unfold edgeVisible
  cases inc
  · by_cases hag : r.agent_link ≠ 0
    · simp [hag]
    · cases hclass : decode_stored_class r.stored_class
      · simp [hag, hclass, not_lt, lineage_ne_location_only]
      · simp only [hag, hclass, not_lt]
        simp [lineage_ne_location_only.symm]
  · simp

theorem edgeVisible_congr {r r' : StoredEdge} (h : decodeEdgeRow r' = decodeEdgeRow r)
    (mc : ℚ) (inc : Bool) : edgeVisible mc inc r' = edgeVisible mc inc r := by
  have hconf : r'.confidence = r.confidence := by
    have := congrArg EdgeRow.confidence h; simpa [decodeEdgeRow] using this
  have hcl : decode_stored_class r'.stored_class = decode_stored_class r.stored_class := by
    have := congrArg EdgeRow.stored_class h; simpa [decodeEdgeRow] using this
  have hag : decide (r'.agent_link ≠ 0) = decide (r.agent_link ≠ 0) := by
    have := congrArg EdgeRow.agent_link h; simpa [decodeEdgeRow] using this
  unfold edgeVisible
  rw [hconf, hcl, hag]

/-- C4: For every stored edge and every query (min_confidence,
include_forensics), outbound_edges and inbound_edges return the edge if and
only if include_forensics is true, or agent_link is true, or (stored_class is
Lineage and confidence ≥ min_confidence).  Consequently without forensics a
LocationOnly edge is hidden even when min_confidence is below its confidence,
and an agent-link edge is returned for every min_confidence. -/
theorem edge_visibility_rule (st : SqliteIndex) (r : StoredEdge) (mc : ℚ) (inc : Bool)
    (hmem : r ∈ st.edges) :
    (decodeEdgeRow r ∈ outbound_edges st r.from_anchor mc inc ↔
      (inc = true ∨ r.agent_link ≠ 0 ∨
        (decode_stored_class r.stored_class = StoredEdgeClass.Lineage ∧
          mc ≤ r.confidence))) ∧
    (decodeEdgeRow r ∈ inbound_edges st r.to_anchor mc inc ↔
      (inc = true ∨ r.agent_link ≠ 0 ∨
        (decode_stored_class r.stored_class = StoredEdgeClass.Lineage ∧
          mc ≤ r.confidence))) := by
  constructor
  · rw [mem_outbound_iff]
    constructor
    · rintro ⟨r', _, _, hvis, hdec⟩
      rw [edgeVisible_congr hdec] at hvis
      exact (edgeVisible_iff mc inc r).mp hvis
    · intro hcond
      exact ⟨r, hmem, rfl, (edgeVisible_iff mc inc r).mpr hcond, rfl⟩
  · rw [mem_inbound_iff]
    constructor
    · rintro ⟨r', _, _, hvis, hdec⟩
      rw [edgeVisible_congr hdec] at hvis
      exact (edgeVisible_iff mc inc r).mp hvis
    · intro hcond
      exact ⟨r, hmem, rfl, (edgeVisible_iff mc inc r).mpr hcond, rfl⟩

/-- Witness for C4 at the stored span-link edge of `c6Index`, with
min_confidence 0 and no forensics. -/
theorem edge_visibility_rule_witness :
    (decodeEdgeRow c6Edge ∈ outbound_edges c6Index c6Edge.from_anchor 0 false ↔
      (false = true ∨ c6Edge.agent_link ≠ 0 ∨
        (decode_stored_class c6Edge.stored_class = StoredEdgeClass.Lineage ∧
          0 ≤ c6Edge.confidence))) ∧
    (decodeEdgeRow c6Edge ∈ inbound_edges c6Index c6Edge.to_anchor 0 false ↔
      (false = true ∨ c6Edge.agent_link ≠ 0 ∨
        (decode_stored_class c6Edge.stored_class = StoredEdgeClass.Lineage ∧
          0 ≤ c6Edge.confidence))) :=
  edge_visibility_rule c6Index c6Edge 0 false (by simp [c6Index])

/-! ### Note storage round-trip -/

theorem validate_anchor_empty :
    validate_anchor "" =
      Except.error (SqlError.InvalidParameterName "anchor_hash must not be empty") := rfl

theorem insert_edge_ok_shape {st st' : SqliteIndex} {e : SpanEdge} {thr : ℚ}
    (h : insert_edge st e thr = Except.ok st') :
    e.from_anchor ≠ "" ∧ e.to_anchor ≠ "" ∧
    st' = { st with edges := insertEdgeRow st.edges (storedEdgeRowOf e thr) } := by
  by_cases h1 : e.from_anchor = ""
  · unfold insert_edge at h
    rw [h1, validate_anchor_empty, except_error_bind] at h
    cases h
  · by_cases h2 : e.to_anchor = ""
    · unfold insert_edge at h
      rw [validate_anchor_ok h1, except_ok_bind, h2, validate_anchor_empty,
        except_error_bind] at h
      cases h
    · unfold insert_edge at h
      rw [validate_anchor_ok h1, except_ok_bind, validate_anchor_ok h2, except_ok_bind,
        insert_edge_on_eq h1 h2] at h
      exact ⟨h1, h2, (Except.ok.inj h).symm⟩

theorem insertEdgeRow_cases (tbl : List StoredEdge) (r : StoredEdge) :
    insertEdgeRow tbl r = tbl ∨ insertEdgeRow tbl r = tbl ++ [r] := by
  unfold insertEdgeRow
  split
  · exact Or.inl rfl
  · split
    · exact Or.inl rfl
    · exact Or.inr rfl

/-- C10: Edge notes collapse empty to absent across a store/read round-trip:
an edge inserted via insert_edge with note None or Some "" is stored with
note "" and decoded back with note None; a non-empty note Some s comes back
as Some s; and no returned edge of any query ever has note Some "". -/
theorem note_round_trip (st st' : SqliteIndex) (e : SpanEdge) (thr mc : ℚ)
    (t : SqliteIndex) (qa : String) (qmc : ℚ) (qinc : Bool) (x : EdgeRow)
    (h : insert_edge st e thr = Except.ok st') :
    ((e.note = none ∨ e.note = some "") → (storedEdgeRowOf e thr).note = "") ∧
    (st'.edges = st.edges ∨
      (st'.edges = st.edges ++ [storedEdgeRowOf e thr] ∧
        decodeEdgeRow (storedEdgeRowOf e thr) ∈ outbound_edges st' e.from_anchor mc true ∧
        decodeEdgeRow (storedEdgeRowOf e thr) ∈ inbound_edges st' e.to_anchor mc true)) ∧
    ((decodeEdgeRow (storedEdgeRowOf e thr)).note =
      match e.note with
      | none => none
      | some s => if s = "" then none else some s) ∧
    ((x ∈ outbound_edges t qa qmc qinc ∨ x ∈ inbound_edges t qa qmc qinc) →
      x.note ≠ some "") := by
  obtain ⟨h1, h2, hshape⟩ := insert_edge_ok_shape h
  refine ⟨?_, ?_, ?_, ?_⟩
  · rintro (hn | hn) <;> simp [storedEdgeRowOf, hn]
  · rcases insertEdgeRow_cases st.edges (storedEdgeRowOf e thr) with hcase | hcase
    · left; rw [hshape, hcase]
    · right
      have hedges : st'.edges = st.edges ++ [storedEdgeRowOf e thr] := by
        rw [hshape, hcase]
      refine ⟨hedges, ?_, ?_⟩
      · rw [mem_outbound_iff]
        exact ⟨storedEdgeRowOf e thr, by simp [hedges], rfl,
          (edgeVisible_iff mc true _).mpr (Or.inl rfl), rfl⟩
      · rw [mem_inbound_iff]
        exact ⟨storedEdgeRowOf e thr, by simp [hedges], rfl,
          (edgeVisible_iff mc true _).mpr (Or.inl rfl), rfl⟩
  · rcases hn : e.note with _ | s
    · simp [decodeEdgeRow, storedEdgeRowOf, hn]
    · by_cases hs : s = "" <;> simp [decodeEdgeRow, storedEdgeRowOf, hn, hs]
  · intro hx
    have hnote : ∃ r : StoredEdge, (if r.note = "" then (none : Option String)
        else some r.note) = x.note := by
      rcases hx with hx | hx
      · obtain ⟨r, _, _, _, hdec⟩ := (mem_outbound_iff t qa qmc qinc x).mp hx
        exact ⟨r, by rw [← hdec]; rfl⟩
      · obtain ⟨r, _, _, _, hdec⟩ := (mem_inbound_iff t qa qmc qinc x).mp hx
        exact ⟨r, by rw [← hdec]; rfl⟩
    obtain ⟨r, hr⟩ := hnote
    intro hcontra
    rw [hcontra] at hr
    by_cases hre : r.note = ""
    · rw [if_pos hre] at hr; cases hr
    · rw [if_neg hre] at hr
      exact hre (Option.some.inj hr)

/-- Witness for C10: inserting into the empty index an edge "a" → "b" with
confidence 1 and note Some "" stores note "" and reads back note None. -/
theorem note_round_trip_witness :
    (((c10Edge.note = none ∨ c10Edge.note = some "") →
      (storedEdgeRowOf c10Edge LINK_THRESHOLD_DEFAULT).note = "") ∧
    (c10Index.edges = emptyIndex.edges ∨
      (c10Index.edges = emptyIndex.edges ++ [storedEdgeRowOf c10Edge LINK_THRESHOLD_DEFAULT] ∧
        decodeEdgeRow (storedEdgeRowOf c10Edge LINK_THRESHOLD_DEFAULT) ∈
          outbound_edges c10Index c10Edge.from_anchor 0 true ∧
        decodeEdgeRow (storedEdgeRowOf c10Edge LINK_THRESHOLD_DEFAULT) ∈
          inbound_edges c10Index c10Edge.to_anchor 0 true)) ∧
    ((decodeEdgeRow (storedEdgeRowOf c10Edge LINK_THRESHOLD_DEFAULT)).note =
      match c10Edge.note with
      | none => none
      | some s => if s = "" then none else some s) ∧
    ((decodeEdgeRow (storedEdgeRowOf c10Edge LINK_THRESHOLD_DEFAULT) ∈
        outbound_edges c10Index "a" 0 true ∨
      decodeEdgeRow (storedEdgeRowOf c10Edge LINK_THRESHOLD_DEFAULT) ∈
        inbound_edges c10Index "a" 0 true) →
      (decodeEdgeRow (storedEdgeRowOf c10Edge LINK_THRESHOLD_DEFAULT)).note ≠ some "")) :=
  note_round_trip emptyIndex c10Index c10Edge LINK_THRESHOLD_DEFAULT 0 c10Index "a" 0 true
    (decodeEdgeRow (storedEdgeRowOf c10Edge LINK_THRESHOLD_DEFAULT)) rfl

/-! ### Ingest idempotence -/

/-- Row-wise containment of index states: every stored row of `s` is stored
in `t`. -/
def SqliteIndex.Sub (s t : SqliteIndex) : Prop :=
  (∀ r ∈ s.evidence, r ∈ t.evidence) ∧ (∀ r ∈ s.edges, r ∈ t.edges) ∧
  (∀ r ∈ s.tombstones, r ∈ t.tombstones)

theorem sub_refl (s : SqliteIndex) : s.Sub s :=
  ⟨fun _ h => h, fun _ h => h, fun _ h => h⟩

theorem sub_trans {s t u : SqliteIndex} (h1 : s.Sub t) (h2 : t.Sub u) : s.Sub u :=
  ⟨fun r hr => h2.1 r (h1.1 r hr), fun r hr => h2.2.1 r (h1.2.1 r hr),
   fun r hr => h2.2.2 r (h1.2.2 r hr)⟩

theorem insertEvidenceRow_mono (tbl : List EvidenceRow) (r : EvidenceRow) :
    ∀ q ∈ tbl, q ∈ insertEvidenceRow tbl r := by
  unfold insertEvidenceRow
  split
  · exact fun q hq => hq
  · exact fun q hq => List.mem_append_left _ hq

theorem insertEvidenceRow_stable (tbl tbl3 : List EvidenceRow) (r : EvidenceRow)
    (h : ∀ q ∈ insertEvidenceRow tbl r, q ∈ tbl3) : insertEvidenceRow tbl3 r = tbl3 := by
  unfold insertEvidenceRow at h ⊢
  by_cases hc : (tbl.any fun q => evidenceKey q = evidenceKey r) = true
  · rw [if_pos hc] at h
    obtain ⟨q, hq, hqr⟩ := List.any_eq_true.mp hc
    rw [if_pos (List.any_eq_true.mpr ⟨q, h q hq, hqr⟩)]
  · rw [if_neg hc] at h
    have hr3 : r ∈ tbl3 := h r (List.mem_append_right _ (List.mem_singleton.mpr rfl))
    rw [if_pos (List.any_eq_true.mpr ⟨r, hr3, by simp⟩)]

theorem insertEdgeRow_mono (tbl : List StoredEdge) (r : StoredEdge) :
    ∀ q ∈ tbl, q ∈ insertEdgeRow tbl r := by
  unfold insertEdgeRow
  split
  · exact fun q hq => hq
  · split
    · exact fun q hq => hq
    · exact fun q hq => List.mem_append_left _ hq

theorem insertEdgeRow_stable (tbl tbl3 : List StoredEdge) (r : StoredEdge)
    (h : ∀ q ∈ insertEdgeRow tbl r, q ∈ tbl3) : insertEdgeRow tbl3 r = tbl3 := by
  unfold insertEdgeRow at h ⊢
  by_cases hchk : ¬(0 ≤ r.confidence ∧ r.confidence ≤ 1 ∧
      (r.agent_link = 0 ∨ r.agent_link = 1))
  · rw [if_pos hchk]
  · rw [if_neg hchk] at h ⊢
    by_cases hdup : (tbl.any fun q => q = r) = true
    · rw [if_pos hdup] at h
      obtain ⟨q, hq, hqr⟩ := List.any_eq_true.mp hdup
      rw [if_pos (List.any_eq_true.mpr ⟨q, h q hq, hqr⟩)]
    · rw [if_neg hdup] at h
      have hr3 : r ∈ tbl3 := h r (List.mem_append_right _ (List.mem_singleton.mpr rfl))
      rw [if_pos (List.any_eq_true.mpr ⟨r, hr3, by simp⟩)]

theorem insertTombstoneRow_mono (tbl : List TombstoneRow) (r : TombstoneRow) :
    ∀ q ∈ tbl, q ∈ insertTombstoneRow tbl r := by
  unfold insertTombstoneRow
  split
  · exact fun q hq => hq
  · exact fun q hq => List.mem_append_left _ hq

theorem insertTombstoneRow_stable (tbl tbl3 : List TombstoneRow) (r : TombstoneRow)
    (h : ∀ q ∈ insertTombstoneRow tbl r, q ∈ tbl3) : insertTombstoneRow tbl3 r = tbl3 := by
  unfold insertTombstoneRow at h ⊢
  by_cases hc : (tbl.any fun q => tombstoneKey q = tombstoneKey r) = true
  · rw [if_pos hc] at h
    obtain ⟨q, hq, hqr⟩ := List.any_eq_true.mp hc
    rw [if_pos (List.any_eq_true.mpr ⟨q, h q hq, hqr⟩)]
  · rw [if_neg hc] at h
    have hr3 : r ∈ tbl3 := h r (List.mem_append_right _ (List.mem_singleton.mpr rfl))
    rw [if_pos (List.any_eq_true.mpr ⟨r, hr3, by simp⟩)]

/-- A state transformer that only ever appends rows and suppresses
re-insertion: on success the input state is contained in the output, and
re-running it on any state that already contains the output is the
identity. -/
def StepIdem (P : SqliteIndex → Except SqlError SqliteIndex) : Prop :=
  ∀ st st₁, P st = Except.ok st₁ →
    st.Sub st₁ ∧ ∀ u, st₁.Sub u → P u = Except.ok u

theorem except_bind_ok_inv {α β : Type} {x : Except SqlError α}
    {f : α → Except SqlError β} {c : β} (h : (x >>= f) = Except.ok c) :
    ∃ b, x = Except.ok b ∧ f b = Except.ok c := by
  cases x with
  | ok a => exact ⟨a, rfl, h⟩
  | error e => rw [except_error_bind] at h; cases h

theorem step_idem_pure : StepIdem (fun st => Except.ok st) :=
  fun st _ h => ⟨Except.ok.inj h ▸ sub_refl st, fun _ _ => rfl⟩

theorem step_idem_comp {P Q : SqliteIndex → Except SqlError SqliteIndex}
    (hP : StepIdem P) (hQ : StepIdem Q) : StepIdem (fun st => P st >>= Q) := by
  intro st st₂ h
  obtain ⟨st₁, hx, hf⟩ := except_bind_ok_inv h
  obtain ⟨hsub1, hstable1⟩ := hP st st₁ hx
  obtain ⟨hsub2, hstable2⟩ := hQ st₁ st₂ hf
  refine ⟨sub_trans hsub1 hsub2, fun u hu => ?_⟩
  have hPu : P u = Except.ok u := hstable1 u (sub_trans hsub2 hu)
  show P u >>= Q = Except.ok u
  rw [hPu, except_ok_bind]
  exact hstable2 u hu

/-- Prefixing a state-independent validation keeps the step idempotent. -/
theorem step_idem_validate {P : SqliteIndex → Except SqlError SqliteIndex}
    (v : Except SqlError Unit) (hP : StepIdem P) :
    StepIdem (fun st => v >>= fun _ => P st) := by
  intro st st₁ h
  obtain ⟨u0, hv, hf⟩ := except_bind_ok_inv h
  obtain ⟨hsub, hstable⟩ := hP st st₁ hf
  refine ⟨hsub, fun u hu => ?_⟩
  show (v >>= fun _ => P u) = Except.ok u
  rw [hv, except_ok_bind]
  exact hstable u hu

theorem step_idem_insert_evidence (anchor : String) (fragment : EvidenceFragmentRef) :
    StepIdem (fun st => insert_evidence_on st anchor fragment) := by
  intro st st₁ h
  dsimp only at h ⊢
  by_cases ha : anchor = ""
  · subst ha; rw [insert_evidence_on_empty] at h; cases h
  · rw [insert_evidence_on_eq ha] at h
    have hshape := Except.ok.inj h
    subst hshape
    refine ⟨⟨insertEvidenceRow_mono _ _, fun _ hq => hq, fun _ hq => hq⟩, fun u hu => ?_⟩
    rw [insert_evidence_on_eq ha]
    have : insertEvidenceRow u.evidence (evidenceRowOf anchor fragment) = u.evidence :=
      insertEvidenceRow_stable _ _ _ hu.1
    rw [this]

theorem step_idem_insert_edge (edge : SpanEdge) (thr : ℚ) :
    StepIdem (fun st => insert_edge_on st edge thr) := by
  intro st st₁ h
  dsimp only at h ⊢
  by_cases h1 : edge.from_anchor = ""
  · unfold insert_edge_on at h
    rw [h1, validate_anchor_empty, except_error_bind] at h; cases h
  · by_cases h2 : edge.to_anchor = ""
    · unfold insert_edge_on at h
      rw [validate_anchor_ok h1, except_ok_bind, h2, validate_anchor_empty,
        except_error_bind] at h
      cases h
    · rw [insert_edge_on_eq h1 h2] at h
      have hshape := Except.ok.inj h
      subst hshape
      refine ⟨⟨fun _ hq => hq, insertEdgeRow_mono _ _, fun _ hq => hq⟩, fun u hu => ?_⟩
      rw [insert_edge_on_eq h1 h2]
      have : insertEdgeRow u.edges (storedEdgeRowOf edge thr) = u.edges :=
        insertEdgeRow_stable _ _ _ hu.2.1
      rw [this]

theorem step_idem_insert_tombstone_prim (anchor : String) (t : Tombstone) :
    StepIdem (fun st => do
      let _ ← validate_anchor anchor
      let row := tombstoneRowOf anchor t
      Except.ok { st with tombstones := insertTombstoneRow st.tombstones row }) := by
  intro st st₁ h
  dsimp only at h ⊢
  by_cases ha : anchor = ""
  · rw [ha, validate_anchor_empty, except_error_bind] at h; cases h
  · rw [validate_anchor_ok ha, except_ok_bind] at h
    have hshape := Except.ok.inj h
    subst hshape
    refine ⟨⟨fun _ hq => hq, fun _ hq => hq, insertTombstoneRow_mono _ _⟩, fun u hu => ?_⟩
    rw [validate_anchor_ok ha, except_ok_bind]
    have : insertTombstoneRow u.tombstones (tombstoneRowOf anchor t) = u.tombstones :=
      insertTombstoneRow_stable _ _ _ hu.2.2
    rw [this]

theorem step_idem_fold {α : Type} (F : α → SqliteIndex → Except SqlError SqliteIndex)
    (hF : ∀ a, StepIdem (F a)) :
    ∀ l : List α, StepIdem (fun st => l.foldlM (fun s a => F a s) st) := by
  intro l
  induction l with
  | nil => exact step_idem_pure
  | cons a as ih =>
      intro st st₂ h
      dsimp only at h ⊢
      rw [List.foldlM_cons] at h
      have := step_idem_comp (hF a) ih st st₂ h
      refine ⟨this.1, fun u hu => ?_⟩
      rw [List.foldlM_cons]
      exact this.2 u hu

theorem step_idem_insert_tombstone (t : Tombstone) :
    StepIdem (fun st => insert_tombstone_on st t) := by
  have := step_idem_fold
    (fun anchor st => do
      let _ ← validate_anchor anchor
      let row := tombstoneRowOf anchor t
      Except.ok { st with tombstones := insertTombstoneRow st.tombstones row })
    (fun anchor => step_idem_insert_tombstone_prim anchor t) t.anchor_hashes
  exact this

/-- Processing one tape event only appends rows, and re-processing it on any
state containing the result is the identity. -/
theorem step_idem_processEvent (tape_id : String) (thr : ℚ) (item : TapeEventAt) :
    StepIdem (fun st => processEvent tape_id thr st item) := by
  intro st stF h
  rcases hdata : item.event.data with read | edit | link | meta | kind
  · -- CodeRead
    simp only [processEvent, hdata] at h ⊢
    exact step_idem_fold _ (fun a => step_idem_insert_evidence a _) read.anchor_hashes st stF h
  · -- CodeEdit: the chain is a composition of idempotent steps
    simp only [processEvent, hdata] at h ⊢
    rcases hb : edit.before_hash with _ | b <;> rcases ha : edit.after_hash with _ | a <;>
      simp only [hb, ha, except_ok_bind] at h ⊢
    · exact ⟨Except.ok.inj h ▸ sub_refl st, fun u hu => trivial⟩
    · exact step_idem_comp (step_idem_insert_evidence _ _) step_idem_pure st stF h
    · exact step_idem_comp (step_idem_insert_evidence _ _)
        (step_idem_insert_tombstone _) st stF h
    · exact step_idem_comp (step_idem_insert_evidence _ _)
        (step_idem_comp (step_idem_insert_evidence _ _)
          (step_idem_validate _
            (step_idem_comp (step_idem_insert_edge _ _) step_idem_pure))) st stF h
  · simp only [processEvent, hdata] at h ⊢
    exact step_idem_insert_edge _ _ st stF h
  · simp only [processEvent, hdata] at h ⊢
    exact ⟨Except.ok.inj h ▸ sub_refl st, fun u hu => trivial⟩
  · simp only [processEvent, hdata] at h ⊢
    exact ⟨Except.ok.inj h ▸ sub_refl st, fun u hu => trivial⟩

/-- C5: Ingest is idempotent: if ingesting an event list produced `st'`, then
ingesting it again from `st'` succeeds and leaves exactly `st'` — the same
evidence, edge, and tombstone rows (hence the same row counts) — because the
re-insertion of every row, identical under the uniqueness keys, is silently
suppressed. -/
theorem ingest_idempotent (st st' : SqliteIndex) (tape_id : String)
    (events : List TapeEventAt) (link_threshold : ℚ)
    (h : ingest_tape_events st tape_id events link_threshold = Except.ok st') :
    ingest_tape_events st' tape_id events link_threshold = Except.ok st' := by
  have := step_idem_fold (fun item st => processEvent tape_id link_threshold st item)
    (fun item => step_idem_processEvent tape_id link_threshold item) events st st' h
  exact this.2 st' (sub_refl st')

/-- Witness for C5: re-ingesting a one-event tape from its own result state
is the identity. -/
theorem ingest_idempotent_witness :
    ingest_tape_events c5Index "tape-1" [readEvent "a" "src/lib.rs" 0]
      LINK_THRESHOLD_DEFAULT = Except.ok c5Index :=
  ingest_idempotent emptyIndex c5Index "tape-1" [readEvent "a" "src/lib.rs" 0]
    LINK_THRESHOLD_DEFAULT rfl

/-! ### Termination of the explain traversal -/

theorem inbound_edges_length_le (st : SqliteIndex) (a : String) (mc : ℚ) (inc : Bool) :
    (inbound_edges st a mc inc).length ≤ st.edges.length := by
  unfold inbound_edges
  rw [List.length_map]
  calc (List.filter _ (List.insertionSort confidenceDesc
          (st.edges.filter (fun r => r.to_anchor = a)))).length
      ≤ (List.insertionSort confidenceDesc
          (st.edges.filter (fun r => r.to_anchor = a))).length :=
        List.length_filter_le _ _
    _ = (st.edges.filter (fun r => r.to_anchor = a)).length :=
        List.length_insertionSort _ _
    _ ≤ st.edges.length := List.length_filter_le _ _

theorem inbound_from_anchor_mem {st : SqliteIndex} {a : String} {mc : ℚ} {inc : Bool}
    {x : EdgeRow} (hx : x ∈ inbound_edges st a mc inc) :
    ∃ r ∈ st.edges, r.from_anchor = x.from_anchor := by
  obtain ⟨r, hmem, _, _, hdec⟩ := (mem_inbound_iff st a mc inc x).mp hx
  exact ⟨r, hmem, by rw [← hdec]; rfl⟩

theorem expandEdges_queue_length (t : ExplainTraversal) (depth : Nat) (visited : List String) :
    ∀ (edges : List EdgeRow) (queue : List (String × Nat)) (out : List EdgeRow),
      (expandEdges t depth visited edges queue out).1.length ≤
        queue.length + edges.length := by
  intro edges
  induction edges with
  | nil => intro queue out; simp [expandEdges]
  | cons e more ih =>
      intro queue out
      unfold expandEdges
      split
      · simp
      · split
        · calc (expandEdges t depth visited more queue (out ++ [e])).1.length
              ≤ queue.length + more.length := ih queue (out ++ [e])
            _ ≤ queue.length + (more.length + 1) := by omega
        · calc (expandEdges t depth visited more (queue ++ [(e.from_anchor, depth + 1)])
                (out ++ [e])).1.length
              ≤ (queue ++ [(e.from_anchor, depth + 1)]).length + more.length :=
                ih _ (out ++ [e])
            _ ≤ queue.length + (more.length + 1) := by simp; omega

theorem expandEdges_queue_mem (t : ExplainTraversal) (depth : Nat) (visited : List String) :
    ∀ (edges : List EdgeRow) (queue : List (String × Nat)) (out : List EdgeRow)
      (p : String × Nat), p ∈ (expandEdges t depth visited edges queue out).1 →
      p ∈ queue ∨ ∃ e ∈ edges, p = (e.from_anchor, depth + 1) := by
  intro edges
  induction edges with
  | nil => intro queue out p hp; exact Or.inl (by simpa [expandEdges] using hp)
  | cons e more ih =>
      intro queue out p hp
      unfold expandEdges at hp
      split at hp
      · exact Or.inl hp
      · split at hp
        · rcases ih queue (out ++ [e]) p hp with h | ⟨e', he', hpe⟩
          · exact Or.inl h
          · exact Or.inr ⟨e', List.mem_cons_of_mem _ he', hpe⟩
        · rcases ih (queue ++ [(e.from_anchor, depth + 1)]) (out ++ [e]) p hp with h | ⟨e', he', hpe⟩
          · rcases List.mem_append.mp h with h | h
            · exact Or.inl h
            · exact Or.inr ⟨e, List.mem_cons_self _ _, List.mem_singleton.mp h⟩
          · exact Or.inr ⟨e', List.mem_cons_of_mem _ he', hpe⟩

/-- The loop of `retrieve_lineage` completes (returns `some`) whenever the
fuel covers the measure `|queue| + (|edges| + 1) · |unvisited universe|`. -/
theorem lineage_loop_some (st : SqliteIndex) (t : ExplainTraversal) (inc : Bool)
    (U : Finset String) (hU : ∀ r ∈ st.edges, r.from_anchor ∈ U) :
    ∀ (fuel : Nat) (queue : List (String × Nat)) (visited : List String) (out : List EdgeRow),
      (∀ p ∈ queue, p.1 ∈ U) →
      queue.length + (st.edges.length + 1) *
        (U.filter (fun a => a ∉ visited)).card ≤ fuel →
      (retrieveLineageLoop st t inc fuel queue visited out).isSome = true := by
  intro fuel
  induction fuel with
  | zero =>
      intro queue visited out _ hm
      cases queue with
      | nil => simp [retrieveLineageLoop]
      | cons p rest =>
          exfalso
          rw [List.length_cons] at hm
          generalize (st.edges.length + 1) *
            (U.filter (fun a => a ∉ visited)).card = A at hm
          omega
  | succ fuel ih =>
      intro queue visited out hq hm
      cases queue with
      | nil => simp [retrieveLineageLoop]
      | cons p rest =>
          obtain ⟨anchor, depth⟩ := p
          by_cases hv : anchor ∈ visited
          · simp only [retrieveLineageLoop, if_pos hv]
            apply ih rest visited out (fun q hqm => hq q (List.mem_cons_of_mem _ hqm))
            rw [List.length_cons] at hm
            generalize (st.edges.length + 1) *
              (U.filter (fun a => a ∉ visited)).card = A at hm ⊢
            omega
          · have hanchU : anchor ∈ U := hq (anchor, depth) (List.mem_cons_self _ _)
            have hset : U.filter (fun a => a ∉ (anchor :: visited)) =
                (U.filter (fun a => a ∉ visited)).erase anchor := by
              ext x
              simp only [Finset.mem_erase, Finset.mem_filter, List.mem_cons]
              constructor
              · rintro ⟨hxU, hx⟩
                push_neg at hx
                exact ⟨hx.1, hxU, hx.2⟩
              · rintro ⟨hxa, hxU, hxv⟩
                refine ⟨hxU, ?_⟩
                push_neg
                exact ⟨hxa, hxv⟩
            have hmemf : anchor ∈ U.filter (fun a => a ∉ visited) := by
              rw [Finset.mem_filter]; exact ⟨hanchU, hv⟩
            have hcard : (U.filter (fun a => a ∉ (anchor :: visited))).card + 1 =
                (U.filter (fun a => a ∉ visited)).card := by
              rw [hset, Finset.card_erase_of_mem hmemf]
              have hpos : 0 < (U.filter (fun a => a ∉ visited)).card :=
                Finset.card_pos.mpr ⟨anchor, hmemf⟩
              omega
            have hmul : (st.edges.length + 1) *
                (U.filter (fun a => a ∉ visited)).card =
                (st.edges.length + 1) *
                  (U.filter (fun a => a ∉ (anchor :: visited))).card +
                (st.edges.length + 1) := by
              rw [← hcard]; ring
            rw [List.length_cons, hmul] at hm
            simp only [retrieveLineageLoop, if_neg hv]
            by_cases hout : t.max_edges ≤ out.length
            · rw [if_pos hout]; simp
            · rw [if_neg hout]
              by_cases hdep : t.max_depth ≤ depth
              · rw [if_pos hdep]
                apply ih rest (anchor :: visited) out
                  (fun q hqm => hq q (List.mem_cons_of_mem _ hqm))
                generalize (st.edges.length + 1) *
                  (U.filter (fun a => a ∉ (anchor :: visited))).card = A at hm ⊢
                omega
              · rw [if_neg hdep]
                rcases hpair : expandEdges t depth (anchor :: visited)
                    ((inbound_edges st anchor t.min_confidence inc).take t.max_fanout)
                    rest out with ⟨q', o'⟩
                simp only [hpair]
                have hqlen : q'.length ≤ rest.length + st.edges.length := by
                  have h1 := expandEdges_queue_length t depth (anchor :: visited)
                    ((inbound_edges st anchor t.min_confidence inc).take t.max_fanout)
                    rest out
                  rw [hpair] at h1
                  dsimp only at h1
                  have h2 : ((inbound_edges st anchor t.min_confidence inc).take
                      t.max_fanout).length ≤ st.edges.length := by
                    calc ((inbound_edges st anchor t.min_confidence inc).take
                        t.max_fanout).length
                        ≤ (inbound_edges st anchor t.min_confidence inc).length :=
                          (List.length_take _ _).le.trans (Nat.min_le_right _ _)
                      _ ≤ st.edges.length := inbound_edges_length_le st anchor _ inc
                  omega
                have hqmem : ∀ q ∈ q', q.1 ∈ U := by
                  intro q hqm
                  have h1 := expandEdges_queue_mem t depth (anchor :: visited)
                    ((inbound_edges st anchor t.min_confidence inc).take t.max_fanout)
                    rest out q
                  rw [hpair] at h1
                  rcases h1 hqm with h | ⟨e, he, hpe⟩
                  · exact hq q (List.mem_cons_of_mem _ h)
                  · have hein : e ∈ inbound_edges st anchor t.min_confidence inc :=
                      List.take_subset _ _ he
                    obtain ⟨r, hmem, hfrom⟩ := inbound_from_anchor_mem hein
                    rw [hpe]
                    exact hfrom ▸ hU r hmem
                apply ih q' (anchor :: visited) o' hqmem
                generalize hA : (st.edges.length + 1) *
                  (U.filter (fun a => a ∉ (anchor :: visited))).card = A at hm ⊢
                omega

/-- C9: `retrieve_lineage` terminates (its fuel bound suffices and the loop
returns a result) for every finite stored edge set, every seed list and every
traversal configuration — in particular for cyclic edge graphs, since the
universe of anchors that can ever be enqueued is finite, visited anchors are
never re-expanded, and each iteration either consumes a queue entry or visits
a fresh anchor. -/
theorem retrieve_lineage_terminates (st : SqliteIndex) (anchors : List String)
    (t : ExplainTraversal) (include_forensics : Bool) :
    (retrieve_lineage st anchors t include_forensics).isSome = true := by
  unfold retrieve_lineage lineageFuelBound
  apply lineage_loop_some st t include_forensics (anchorUniverse st anchors)
  · intro r hmem
    unfold anchorUniverse
    exact Finset.mem_union_right _ (List.mem_toFinset.mpr
      (List.mem_map_of_mem (fun r => r.from_anchor) hmem))
  · intro p hp
    obtain ⟨a, ha, hpa⟩ := List.mem_map.mp hp
    rw [← hpa]
    exact Finset.mem_union_left _ (List.mem_toFinset.mpr ha)
  · rw [List.length_map]
    have : (anchorUniverse st anchors).filter (fun a => a ∉ ([] : List String)) =
        anchorUniverse st anchors := by
      ext x; simp
    rw [this]

/-! ### Fingerprint pipeline vs the spec's reference algorithm -/

/-- The interleaved `seen`/`out` fold equals deduplication of the whole
list. -/
theorem dedup_fold_eq (l : List Nat) :
    ∀ (seen out : List Nat),
      (l.foldl dedupStep (seen, out)).2 = out ++ dedupFirstAux seen l := by
  induction l with
  | nil => intro seen out; simp [dedupFirstAux]
  | cons x t ih =>
      intro seen out
      rw [List.foldl_cons]
      by_cases hx : x ∈ seen
      · rw [show dedupStep (seen, out) x = (seen, out) from by
          unfold dedupStep; rw [if_pos hx]]
        rw [ih seen out]
        conv_rhs => unfold dedupFirstAux
        rw [if_pos hx]
      · rw [show dedupStep (seen, out) x = (x :: seen, out ++ [x]) from by
          unfold dedupStep; rw [if_neg hx]]
        rw [ih (x :: seen) (out ++ [x])]
        conv_rhs => unfold dedupFirstAux
        rw [if_neg hx]
        simp

theorem dedupFirst_cons (x : Nat) (t : List Nat) :
    dedupFirst (x :: t) = x :: dedupFirstAux [x] t := by
  unfold dedupFirst
  conv_lhs => unfold dedupFirstAux
  rw [if_neg (List.not_mem_nil x)]

theorem dedupFirst_ne_nil {l : List Nat} (h : l ≠ []) : dedupFirst l ≠ [] := by
  cases l with
  | nil => exact absurd rfl h
  | cons x t => rw [dedupFirst_cons]; exact List.cons_ne_nil x _

/-- The value tracked by the window scan is the running minimum. -/
theorem windowScanGo_value (ws : List Nat) :
    ∀ (idx min_pos min_value : Nat),
      (windowScanGo ws idx min_pos min_value).2 = ws.foldl Nat.min min_value := by
  induction ws with
  | nil => intro idx p m; rfl
  | cons v rest ih =>
      intro idx p m
      unfold windowScanGo
      rw [List.foldl_cons]
      by_cases hv : v ≤ m
      · have hmv : Nat.min m v = v := Nat.min_eq_right hv
        rw [if_pos hv, ih, hmv]
      · have hmv : Nat.min m v = m :=
          Nat.min_eq_left (Nat.le_of_lt (Nat.lt_of_not_le hv))
        rw [if_neg hv, ih, hmv]

/-- The position tracked by the window scan always indexes the tracked
value. -/
theorem windowScanGo_pos (ws : List Nat) :
    ∀ (idx min_pos min_value : Nat) (full : List Nat),
      full.getD min_pos 0 = min_value → full.drop idx = ws →
      full.getD (windowScanGo ws idx min_pos min_value).1 0 =
        (windowScanGo ws idx min_pos min_value).2 := by
  induction ws with
  | nil => intro idx p m full hp _; exact hp
  | cons v rest ih =>
      intro idx p m full hp hdrop
      have hv : full.getD idx 0 = v := by
        rw [List.getD_eq_getElem?_getD]
        have : full[idx]? = some v := by
          have h0 : (full.drop idx)[0]? = full[idx + 0]? := List.getElem?_drop full idx 0
          rw [hdrop] at h0
          simpa using h0.symm
        rw [this]; rfl
      have hrest : full.drop (idx + 1) = rest := by
        have : List.drop 1 (List.drop idx full) = List.drop (idx + 1) full := by
          rw [List.drop_drop]
        rw [← this, hdrop, List.drop_one, List.tail_cons]
      unfold windowScanGo
      by_cases hle : v ≤ m
      · rw [if_pos hle]
        exact ih (idx + 1) idx v full hv hrest
      · rw [if_neg hle]
        exact ih (idx + 1) p m full hp hrest

/-- The code's left-to-right `≤`-accepting scan selects the window
minimum. -/
theorem windowSelected_eq_listMin (ws : List Nat) : windowSelected ws = listMin ws := by
  cases ws with
  | nil => rfl
  | cons w0 rest =>
      show (w0 :: rest).getD (windowScanGo rest 1 0 w0).1 0 = rest.foldl Nat.min w0
      rw [windowScanGo_pos rest 1 0 w0 (w0 :: rest) rfl rfl]
      exact windowScanGo_value rest 1 0 w0

theorem kgram_hashes_length {tokens : List String} {k : Nat} (h : k ≤ tokens.length) :
    (kgram_hashes tokens k).length = tokens.length - k + 1 := by
  unfold kgram_hashes
  rw [if_neg (not_lt.mpr h), List.length_map, List.length_range]

/-- C8: For every text, `fingerprint_text` equals the reference algorithm of
spec §4.1: with fewer than 5 tokens the result is `fallback:<decimal>` of the
hash of the raw text; with at most 4 5-grams winnowing is skipped and the
deduplicated 5-gram list is emitted; otherwise winnowing with window 4
selects in each window the minimum hash (the rightmost position among ties
carries the same value) and the selections are deduplicated in first-seen
order under `winnow:`. -/
theorem fingerprint_matches_spec (text : String) :
    (fingerprint_text text).fingerprint = fingerprintSpec text := by
  unfold fingerprint_text fingerprintSpec
  by_cases htok : (tokenize text).length < DEFAULT_K_GRAM
  · -- degenerate: fewer tokens than k, both sides fall back
    have hkg : kgram_hashes (tokenize text) DEFAULT_K_GRAM = [] := by
      unfold kgram_hashes; rw [if_pos htok]
    have hfeat : winnowed_features (tokenize text) DEFAULT_K_GRAM DEFAULT_WINDOW = [] := by
      unfold winnowed_features
      by_cases he : tokenize text = [] ∨ DEFAULT_K_GRAM = 0 ∨ DEFAULT_WINDOW = 0
      · rw [if_pos he]
      · rw [if_neg he]
        simp [hkg]
    dsimp only
    rw [hfeat, if_pos htok]
    rfl
  · -- at least k tokens: k-grams exist
    dsimp only
    rw [if_neg htok]
    push_neg at htok
    have hne : tokenize text ≠ [] := by
      intro hc
      rw [hc] at htok
      simp [DEFAULT_K_GRAM] at htok
    have hkglen : (kgram_hashes (tokenize text) DEFAULT_K_GRAM).length =
        (tokenize text).length - DEFAULT_K_GRAM + 1 := kgram_hashes_length htok
    have hkgne : kgram_hashes (tokenize text) DEFAULT_K_GRAM ≠ [] := by
      intro hc
      rw [hc] at hkglen
      simp at hkglen
    have hguard : ¬(tokenize text = [] ∨ DEFAULT_K_GRAM = 0 ∨ DEFAULT_WINDOW = 0) := by
      push_neg
      exact ⟨hne, by decide, by decide⟩
    unfold winnowed_features
    rw [if_neg hguard]
    simp only [if_neg hkgne]
    by_cases hw : (kgram_hashes (tokenize text) DEFAULT_K_GRAM).length ≤ DEFAULT_WINDOW
    · -- few k-grams: winnowing skipped, deduplicated k-gram list
      rw [if_pos hw, if_pos hw]
      have hfold : (List.foldl dedupStep ([], [])
          (kgram_hashes (tokenize text) DEFAULT_K_GRAM)).2 =
          dedupFirst (kgram_hashes (tokenize text) DEFAULT_K_GRAM) :=
        (dedup_fold_eq _ [] []).trans (List.nil_append _)
      rw [hfold]
      rw [if_neg (dedupFirst_ne_nil hkgne)]
    · -- winnowing proper
      rw [if_neg hw, if_neg hw]
      have hfoldmap : ((List.range ((kgram_hashes (tokenize text) DEFAULT_K_GRAM).length -
          DEFAULT_WINDOW + 1)).foldl
          (fun st start => dedupStep st (windowSelected
            (((kgram_hashes (tokenize text) DEFAULT_K_GRAM).drop start).take
              DEFAULT_WINDOW))) ([], [])).2 =
          dedupFirst ((List.range ((kgram_hashes (tokenize text) DEFAULT_K_GRAM).length -
          DEFAULT_WINDOW + 1)).map
          (fun start => listMin
            (((kgram_hashes (tokenize text) DEFAULT_K_GRAM).drop start).take
              DEFAULT_WINDOW))) := by
        rw [← List.foldl_map (fun start => windowSelected
          (((kgram_hashes (tokenize text) DEFAULT_K_GRAM).drop start).take DEFAULT_WINDOW))
          dedupStep]
        rw [List.map_congr_left (fun start _ => windowSelected_eq_listMin _)]
        exact (dedup_fold_eq _ [] []).trans (List.nil_append _)
      rw [hfoldmap]
      have hrne : (List.range ((kgram_hashes (tokenize text) DEFAULT_K_GRAM).length -
          DEFAULT_WINDOW + 1)).map
          (fun start => listMin
            (((kgram_hashes (tokenize text) DEFAULT_K_GRAM).drop start).take
              DEFAULT_WINDOW)) ≠ [] := by
        simp
      rw [if_neg (dedupFirst_ne_nil hrne)]

end Engram
